import Mathlib

/-!
Verification development for the selfserv HTTP/1.1 origin server.

The definitions below are a shallow embedding of the C++ sources:
  * `HttpRequestParser::Parse` and its helpers (src/http/HttpRequest.cpp),
  * route matching, virtual-host selection, response building, filename
    sanitisation, multipart save paths, write-side connection handling and
    CGI response translation (src/server/Server.cpp).
Byte strings are modelled as `List Char`; `size_t` values are modelled as
`Nat`, with `% 2 ^ 64` made explicit at the operations where the C++ code
can wrap around.
-/

namespace Selfserv

/-- The two-byte CRLF line terminator. -/
def CRLF : List Char := ['\r', '\n']

/-- The header-terminator `"\r\n\r\n"`. -/
def CRLF2 : List Char := ['\r', '\n', '\r', '\n']

/-- `std::string::find(needle)` on byte strings: index of the first
occurrence of `needle` in `hay`, `none` for `npos`. -/
def findSub (needle : List Char) : List Char → Option Nat
  | [] => if needle.isPrefixOf ([] : List Char) then some 0 else none
  | c :: t =>
    if needle.isPrefixOf (c :: t) then some 0
    else (findSub needle t).map (· + 1)

/-- `std::string::find(needle, start)`: first occurrence at or after
`start`, as an absolute index. -/
def findSubFrom (needle hay : List Char) (start : Nat) : Option Nat :=
  (findSub needle (hay.drop start)).map (· + start)

/-- The whitespace set trimmed by the parser's `trim` helper
(src/http/HttpRequest.cpp): space, tab, CR, LF. -/
def isTrimChar (c : Char) : Bool :=
  c = ' ' || c = '\t' || c = '\r' || c = '\n'

/-- `trim` from src/http/HttpRequest.cpp: strip the trim set from both
ends. -/
def trim (s : List Char) : List Char :=
  ((s.dropWhile isTrimChar).reverse.dropWhile isTrimChar).reverse

/-- C-locale whitespace skipped by `atoi`. -/
def isSpaceC (c : Char) : Bool :=
  c = ' ' || c = '\t' || c = '\n' || c = '\r' || c.toNat = 11 || c.toNat = 12

/-- Digit-accumulation loop of `atoi` (overflow of the C `int` is undefined
behaviour in the source; the accumulator is modelled exactly). -/
def atoiDigits : List Char → Nat → Nat
  | [], acc => acc
  | c :: t, acc =>
    if '0' ≤ c && c ≤ '9' then atoiDigits t (acc * 10 + (c.toNat - '0'.toNat))
    else acc

/-- `std::atoi`: skip C whitespace, optional sign, then decimal digits. -/
def atoi (s : List Char) : Int :=
  match s.dropWhile isSpaceC with
  | '-' :: t => - (atoiDigits t 0 : Int)
  | '+' :: t => (atoiDigits t 0 : Int)
  | t => (atoiDigits t 0 : Int)

/-- The `(size_t)` cast applied to the `atoi` result: reduction modulo
`2 ^ 64` (negative values wrap). -/
def toSizeT (i : Int) : Nat := (i % ((2 : Int) ^ 64)).toNat

/-- One hex digit of the chunk-size parser: `0-9`, `a-f`, `A-F`. -/
def hexDigit (c : Char) : Option Nat :=
  if '0' ≤ c && c ≤ '9' then some (c.toNat - '0'.toNat)
  else if 'a' ≤ c && c ≤ 'f' then some (10 + (c.toNat - 'a'.toNat))
  else if 'A' ≤ c && c ≤ 'F' then some (10 + (c.toNat - 'A'.toNat))
  else none

/-- The chunk-size accumulation loop `val = (val << 4) + d` over `size_t`
(the shift wraps modulo `2 ^ 64`; adding `d < 16` cannot wrap further, so
one joint reduction is exact). `none` models the ERROR exit on a non-hex
character. -/
def hexValAux : List Char → Nat → Option Nat
  | [], acc => some acc
  | c :: t, acc =>
    match hexDigit c with
    | none => none
    | some d => hexValAux t ((acc * 16 + d) % 2 ^ 64)

/-- Hex parse of a whole chunk-size line; the empty line yields `0`. -/
def hexVal (s : List Char) : Option Nat := hexValAux s 0

/-- One recorded request header (`HttpHeader` in the source). -/
structure HttpHeader where
  name : List Char
  value : List Char
deriving Repr, DecidableEq, Inhabited

/-- `HttpRequest` from include/http/HttpRequest.hpp. -/
structure HttpRequest where
  method : List Char
  uri : List Char
  version : List Char
  headers : List HttpHeader
  body : List Char
  complete : Bool
deriving Repr, DecidableEq, Inhabited

/-- A default-constructed `HttpRequest`. -/
def HttpRequest.init : HttpRequest := ⟨[], [], [], [], [], false⟩

/-- Parser states (`kStateRequestLine` … `kStateError`). -/
inductive PState
  | requestLine
  | headersSt
  | bodySt
  | doneSt
  | errorSt
deriving Repr, DecidableEq, Inhabited

/-- Chunked-decoding sub-states (`kChunkSize` … `kChunkDone`). -/
inductive ChunkState
  | chunkSize
  | chunkData
  | chunkCrlf
  | chunkTrailer
  | chunkDone
deriving Repr, DecidableEq, Inhabited

/-- The member variables of `HttpRequestParser`. -/
structure ParserSt where
  state : PState
  contentLength : Nat
  consumed : Nat
  chunked : Bool
  headerEndOffset : Nat
  chunkState : ChunkState
  currentChunkSize : Nat
  currentChunkRead : Nat
deriving Repr, DecidableEq, Inhabited

/-- The constructor / `Reset()` state of the parser. -/
def ParserSt.init : ParserSt :=
  ⟨.requestLine, 0, 0, false, 0, .chunkSize, 0, 0⟩

/-- `HttpRequestParser::Error()`. -/
def ParserSt.isError (ps : ParserSt) : Bool := ps.state = .errorSt

/-- Split a header block into `"\r\n"`-separated lines, exactly as the
`while (pos < headersPart.size())` loop does: a line ends at the next
`"\r\n"` (or at the end of the block), and a final `"\r\n"` does not
produce an extra empty line.  The accumulator holds the current line in
reverse. -/
def splitCRLFAux : List Char → List Char → List (List Char)
  | '\r' :: '\n' :: rest, acc => acc.reverse :: splitCRLFAux rest []
  | c :: rest, acc => splitCRLFAux rest (c :: acc)
  | [], acc => if acc = [] then [] else [acc.reverse]

/-- Line-splitting of the header block. -/
def splitCRLF (s : List Char) : List (List Char) := splitCRLFAux s []

/-- Result of parsing the request line `METHOD SP URI SP VERSION`;
`errAt c` is the ERROR exit with `m_consumed = c` (the end of the first
line). -/
inductive ReqLineRes
  | errAt (consumed : Nat)
  | ok (method uri version : List Char)
deriving Repr, DecidableEq

/-- Request-line parsing from the header loop: split at the first two
spaces. -/
def parseRequestLine (line : List Char) : ReqLineRes :=
  match findSub [' '] line with
  | none => .errAt line.length
  | some m1 =>
    match findSubFrom [' '] line (m1 + 1) with
    | none => .errAt line.length
    | some m2 =>
      .ok (line.take m1) ((line.drop (m1 + 1)).take (m2 - m1 - 1))
        (line.drop (m2 + 1))

/-- Accumulated effect of the header-line loop on the parser and request:
the recorded header list, `m_contentLength` and `m_chunked`. -/
structure HeaderScan where
  headers : List HttpHeader
  contentLength : Nat
  chunked : Bool
deriving Repr, DecidableEq

/-- One header line: find `':'`; absent means the line is skipped; else
trim name and value, record the header, and update `m_contentLength` /
`m_chunked` on an exact match of the names (and, for chunked, the value). -/
def processHeaderLine (st : HeaderScan) (line : List Char) : HeaderScan :=
  match findSub [':'] line with
  | none => st
  | some colon =>
    let n := trim (line.take colon)
    let v := trim (line.drop (colon + 1))
    let st1 : HeaderScan := { st with headers := st.headers ++ [⟨n, v⟩] }
    let st2 : HeaderScan :=
      if n = ("Content-Length".toList) then
        { st1 with contentLength := toSizeT (atoi v) }
      else st1
    if n = ("Transfer-Encoding".toList) && v = ("chunked".toList) then
      { st2 with chunked := true }
    else st2

/-- Fold of `processHeaderLine` over the non-first header lines. -/
def scanHeaderLines : List (List Char) → HeaderScan → HeaderScan
  | [], st => st
  | l :: rest, st => scanHeaderLines rest (processHeaderLine st l)

/-! Bound lemmas about `findSub`, needed for the termination of the
chunk-decoding loop. -/

theorem findSub_some_le {needle hay : List Char} {i : Nat}
    (h : findSub needle hay = some i) : i + needle.length ≤ hay.length := by
  induction hay generalizing i with
  | nil =>
    by_cases hp : needle.isPrefixOf ([] : List Char)
    · have : needle = [] := by
        cases needle with
        | nil => rfl
        | cons a t => simp [List.isPrefixOf] at hp
      simp [findSub, hp] at h
      simp [h.symm, this]
    · simp [findSub, hp] at h
  | cons c t ih =>
    by_cases hp : needle.isPrefixOf (c :: t)
    · have hle : needle.length ≤ (c :: t).length :=
        (List.isPrefixOf_iff_prefix.mp hp).length_le
      simp [findSub, hp] at h
      omega
    · simp [findSub, hp] at h
      obtain ⟨j, hj, rfl⟩ := h
      have := ih hj
      simp
      omega

theorem findSubFrom_some_bounds {needle hay : List Char} {start i : Nat}
    (hne : needle ≠ []) (h : findSubFrom needle hay start = some i) :
    start ≤ i ∧ i + needle.length ≤ hay.length := by
  simp only [findSubFrom, Option.map_eq_some'] at h
  obtain ⟨j, hj, rfl⟩ := h
  have hb := findSub_some_le hj
  have hlen : (hay.drop start).length = hay.length - start := by
    simp
  rw [hlen] at hb
  constructor
  · omega
  · -- when `start` exceeds the length, `hay.drop start = []` and a nonempty
    -- needle cannot be found there
    by_cases hs : start ≤ hay.length
    · omega
    · exfalso
      have : hay.drop start = [] := by
        apply List.drop_eq_nil_of_le
        omega
      rw [this] at hj
      cases needle with
      | nil => exact hne rfl
      | cons a t => simp [findSub, List.isPrefixOf] at hj

/-- The state mutated by the chunked-decoding `while` loop: the local
cursor `p` plus the members `m_consumed`, `m_chunkState`,
`m_currentChunkSize`, `m_currentChunkRead` and the request body being
appended to. -/
structure ChunkSt where
  p : Nat
  consumed : Nat
  chunkState : ChunkState
  currentChunkSize : Nat
  currentChunkRead : Nat
  body : List Char
deriving Repr, DecidableEq, Inhabited

/-- Loop outcome: `cont` is a normal exit (loop condition false or
`break`), `err` is the in-loop `m_state = kStateError; return false;`
exit. -/
inductive ChunkRes
  | cont (s : ChunkSt)
  | err (s : ChunkSt)
deriving Repr, DecidableEq

/-- The chunked-decoding `while` loop of `HttpRequestParser::Parse`
(src/http/HttpRequest.cpp, lines 102-155), one constructor branch per
`m_chunkState` case.  The dead `kChunkCrlf` state (never assigned by the
source) falls into a branch the C++ loop would spin on; it is modelled as
a plain exit and is unreachable. -/
def chunkLoop (data : List Char) (s : ChunkSt) : ChunkRes :=
  if hc : s.p < data.length ∧ s.chunkState ≠ .chunkDone ∧
      s.chunkState ≠ .chunkTrailer then
    match s.chunkState with
    | .chunkSize =>
      match hf : findSubFrom CRLF data s.p with
      | none => .cont s
      | some lineEnd =>
        match hexVal ((data.drop s.p).take (lineEnd - s.p)) with
        | none => .err s
        | some val =>
          chunkLoop data
            ⟨lineEnd + 2, lineEnd + 2,
              if val = 0 then .chunkTrailer else .chunkData, val, 0, s.body⟩
    | .chunkData =>
      -- take = min(available, need); append, then look for the chunk CRLF
      if hfin : s.currentChunkRead +
          min (data.length - s.p) (s.currentChunkSize - s.currentChunkRead) =
          s.currentChunkSize then
        if hb : s.p +
            min (data.length - s.p) (s.currentChunkSize - s.currentChunkRead)
            + 1 ≥ data.length then
          .cont
            ⟨s.p + min (data.length - s.p)
                (s.currentChunkSize - s.currentChunkRead),
              s.p + min (data.length - s.p)
                (s.currentChunkSize - s.currentChunkRead),
              .chunkData, s.currentChunkSize, s.currentChunkSize,
              s.body ++ (data.drop s.p).take
                (min (data.length - s.p)
                  (s.currentChunkSize - s.currentChunkRead))⟩
        else
          if data.getD
              (s.p + min (data.length - s.p)
                (s.currentChunkSize - s.currentChunkRead)) '\x00' = '\r' ∧
             data.getD
              (s.p + min (data.length - s.p)
                (s.currentChunkSize - s.currentChunkRead) + 1) '\x00' = '\n'
          then
            chunkLoop data
              ⟨s.p + min (data.length - s.p)
                  (s.currentChunkSize - s.currentChunkRead) + 2,
                s.p + min (data.length - s.p)
                  (s.currentChunkSize - s.currentChunkRead) + 2,
                .chunkSize, s.currentChunkSize, s.currentChunkSize,
                s.body ++ (data.drop s.p).take
                  (min (data.length - s.p)
                    (s.currentChunkSize - s.currentChunkRead))⟩
          else
            .err
              ⟨s.p + min (data.length - s.p)
                  (s.currentChunkSize - s.currentChunkRead),
                s.p + min (data.length - s.p)
                  (s.currentChunkSize - s.currentChunkRead),
                .chunkData, s.currentChunkSize, s.currentChunkSize,
                s.body ++ (data.drop s.p).take
                  (min (data.length - s.p)
                    (s.currentChunkSize - s.currentChunkRead))⟩
      else
        .cont
          ⟨s.p + min (data.length - s.p)
              (s.currentChunkSize - s.currentChunkRead),
            s.p + min (data.length - s.p)
              (s.currentChunkSize - s.currentChunkRead),
            .chunkData, s.currentChunkSize,
            s.currentChunkRead +
              min (data.length - s.p)
                (s.currentChunkSize - s.currentChunkRead),
            s.body ++ (data.drop s.p).take
              (min (data.length - s.p)
                (s.currentChunkSize - s.currentChunkRead))⟩
    | _ => .cont s
  else .cont s
termination_by data.length - s.p
decreasing_by
  · have hb := findSubFrom_some_bounds (by decide : CRLF ≠ []) hf
    simp only [CRLF, List.length_cons, List.length_nil] at hb
    omega
  · simp only [ge_iff_le, not_le] at hb
    omega

/-- The result triple of one `Parse` call: the updated member state, the
updated request object and the returned `bool`. -/
structure ParseOut where
  ps : ParserSt
  req : HttpRequest
  ret : Bool
deriving Repr, DecidableEq

/-- Copy the loop-state members back into the parser, as the C++ loop
mutates them in place. -/
def ParserSt.withChunk (ps : ParserSt) (s : ChunkSt) : ParserSt :=
  { ps with consumed := s.consumed, chunkState := s.chunkState, currentChunkSize := s.currentChunkSize, currentChunkRead := s.currentChunkRead }

/-- The `if (m_state == kStateBody)` tail of `Parse`
(src/http/HttpRequest.cpp, lines 94-191): chunked decoding via
`chunkLoop` plus trailer handling, or the fixed `Content-Length` body. -/
def parseBody (ps : ParserSt) (data : List Char) (req : HttpRequest) :
    ParseOut :=
  if ps.state = .bodySt then
    if ps.chunked then
      -- C++: p = headerEndOffset + (consumed ? consumed - headerEndOffset : 0);
      -- under size_t arithmetic this is exactly `consumed` whenever
      -- consumed ≠ 0 (even if consumed < headerEndOffset, the wrap-around
      -- cancels), and `headerEndOffset` otherwise.
      -- C++: if (consumed < headerEndOffset) consumed = headerEndOffset.
      match chunkLoop data
          ⟨(if ps.consumed = 0 then ps.headerEndOffset else ps.consumed),
            (if ps.consumed < ps.headerEndOffset then ps.headerEndOffset
              else ps.consumed),
            ps.chunkState, ps.currentChunkSize, ps.currentChunkRead,
            req.body⟩ with
      | .err s =>
        ⟨{ ps.withChunk s with state := .errorSt },
          { req with body := s.body }, false⟩
      | .cont s =>
        if s.chunkState = .chunkTrailer then
          if data.length ≥ s.p + 2 then
            if data.getD s.p '\x00' = '\r' ∧ data.getD (s.p + 1) '\x00' = '\n'
            then
              ⟨{ ps.withChunk s with state := .doneSt, consumed := s.p + 2, chunkState := .chunkDone },
                { req with body := s.body, complete := true }, true⟩
            else
              ⟨{ ps.withChunk s with state := .errorSt },
                { req with body := s.body }, req.complete⟩
          else
            ⟨ps.withChunk s, { req with body := s.body }, req.complete⟩
        else if s.chunkState = .chunkDone then
          ⟨ps.withChunk s, { req with body := s.body }, true⟩
        else
          ⟨ps.withChunk s, { req with body := s.body }, req.complete⟩
    else
      -- fixed Content-Length body; `data.length - bodyStart` is a size_t
      -- subtraction, exact here because headerEndOffset never exceeds the
      -- buffer length when this branch runs
      if data.length - ps.headerEndOffset ≥ ps.contentLength then
        ⟨{ ps with state := .doneSt, consumed := ps.headerEndOffset + ps.contentLength },
          { req with body := (data.drop ps.headerEndOffset).take ps.contentLength, complete := true }, true⟩
      else ⟨ps, req, req.complete⟩
  else ⟨ps, req, req.complete⟩

/-- The header-block processing of `Parse` after the 8192-byte check
passed (src/http/HttpRequest.cpp, lines 50-92), followed by the body
phase of the same call. -/
def parseHeaderPhase (ps : ParserSt) (data : List Char) (req : HttpRequest)
    (he : Nat) : ParseOut :=
  match splitCRLF (data.take he) with
  | [] =>
    -- empty header block: the line loop never runs, the request-line is
    -- left untouched and the state advances to BODY
    parseBody { ps with state := .bodySt, headerEndOffset := he + 4 } data req
  | firstLine :: rest =>
    match parseRequestLine firstLine with
    | .errAt c => ⟨{ ps with state := .errorSt, consumed := c }, req, false⟩
    | .ok m u v =>
      let hs := scanHeaderLines rest ⟨req.headers, ps.contentLength, ps.chunked⟩
      parseBody
        { ps with state := .bodySt, headerEndOffset := he + 4, contentLength := hs.contentLength, chunked := hs.chunked }
        data
        { req with method := m, uri := u, version := v, headers := hs.headers }

/-- `HttpRequestParser::Parse` (src/http/HttpRequest.cpp, lines 40-192). -/
def Parse (ps : ParserSt) (data : List Char) (req : HttpRequest) : ParseOut :=
  if ps.state = .doneSt ∨ ps.state = .errorSt then ⟨ps, req, req.complete⟩
  else if ps.state = .requestLine ∨ ps.state = .headersSt then
    match findSub CRLF2 data with
    | none => ⟨ps, req, false⟩
    | some he =>
      if he > 8192 then
        ⟨{ ps with state := .errorSt, consumed := he }, req, false⟩
      else parseHeaderPhase ps data req he
  else parseBody ps data req

/-- One event-loop feed: `Parse` called on a buffer, threading the parser
members and the request object. -/
def feedStep (acc : ParserSt × HttpRequest) (d : List Char) :
    ParserSt × HttpRequest :=
  let o := Parse acc.1 d acc.2
  (o.ps, o.req)

/-- A whole sequence of `Parse` calls starting from the freshly
constructed parser and request. -/
def feedAll (datas : List (List Char)) : ParserSt × HttpRequest :=
  datas.foldl feedStep (ParserSt.init, HttpRequest.init)

/-! ### Server-side embedding (src/server/Server.cpp) -/

/-- `RouteConfig` from include/config/Config.hpp (plus the CGI fields used
by Server.cpp). -/
structure RouteConfig where
  path : List Char
  root : List Char
  methods : List (List Char)
  redirect : List Char
  index : List Char
  directoryListing : Bool
  uploadsEnabled : Bool
  uploadPath : List Char
  cgiExtension : List Char
  cgiInterpreter : List Char
deriving Repr, DecidableEq, Inhabited

/-- `ServerConfig` (the fields the route resolver and handler read). -/
structure ServerConfig where
  host : List Char
  port : Int
  serverNames : List (List Char)
  errorPageRoot : List Char
  clientMaxBodySize : Nat
  routes : List RouteConfig
deriving Repr, DecidableEq, Inhabited

/-- `Config`: the ordered server list. -/
structure Config where
  servers : List ServerConfig
deriving Repr, DecidableEq, Inhabited

/-- The loop body of `matchRoute` (src/server/Server.cpp, lines 366-380),
tracking the running index `i`, `bestLen` and `best` (as an index into the
original route list; the C++ keeps a pointer).
`uri.compare(0, r.path.size(), r.path) == 0` holds exactly when `r.path`
is a prefix of `uri`. -/
def matchRouteAux (uri : List Char) :
    List RouteConfig → Nat → Nat → Option Nat → Option Nat
  | [], _, _, best => best
  | r :: rest, i, bestLen, best =>
    if r.path.isPrefixOf uri then
      if r.path.length > bestLen then
        matchRouteAux uri rest (i + 1) r.path.length (some i)
      else matchRouteAux uri rest (i + 1) bestLen best
    else matchRouteAux uri rest (i + 1) bestLen best

/-- `matchRoute`: index of the selected route, `none` when the C++
function returns a null pointer. -/
def matchRoute (sc : ServerConfig) (uri : List Char) : Option Nat :=
  matchRouteAux uri sc.routes 0 0 none

/-- `std::tolower` in the C locale on ASCII input. -/
def toLowerC (c : Char) : Char :=
  if 'A' ≤ c && c ≤ 'Z' then Char.ofNat (c.toNat + 32) else c

/-- The Host-extraction loop of `selectServer`: lowercase each header
name, take the value of the first one equal to `"host"`. An absent header
leaves the empty string. -/
def findHost : List HttpHeader → List Char
  | [] => []
  | h :: t => if h.name.map toLowerC = ("host".toList) then h.value else findHost t

/-- `std::string::rfind(c)`: index of the last occurrence. -/
def rfindChar (c : Char) : List Char → Option Nat
  | [] => none
  | a :: t =>
    match rfindChar c t with
    | some i => some (i + 1)
    | none => if a = c then some 0 else none

/-- The server-name scan of `selectServer`: first server whose
`serverNames` contains `host` by exact `std::string` equality; index 0
when none matches. -/
def findServerAux (host : List Char) : List ServerConfig → Nat → Nat
  | [], _ => 0
  | sc :: rest, i =>
    if host ∈ sc.serverNames then i else findServerAux host rest (i + 1)

/-- `selectServer` (src/server/Server.cpp, lines 384-413), returning the
selected index (`idxOut`). -/
def selectServerIdx (cfg : Config) (req : HttpRequest) : Nat :=
  let host := findHost req.headers
  if host = [] then 0
  else
    let host :=
      match rfindChar ':' host with
      | none => host
      | some colon => host.take colon
    findServerAux host cfg.servers 0

/-- Decimal rendering of a status code / length, as `sprintf("%d"/" %lu")`
produces for the nonnegative values the server passes. -/
def decimal (n : Nat) : List Char := (toString n).toList

/-- `buildResponse` (src/server/Server.cpp, lines 250-273). -/
def buildResponse (code : Nat) (reason body : List Char) (ctype : List Char)
    (keepAlive headOnly : Bool) : List Char :=
  ("HTTP/1.1 ".toList) ++ decimal code ++ [' '] ++ reason ++ CRLF ++
  ("Content-Length: ".toList) ++ decimal body.length ++ CRLF ++
  ("Content-Type: ".toList) ++ ctype ++ CRLF ++
  ("Connection: ".toList) ++
  (if keepAlive then "keep-alive".toList else "close".toList) ++
  CRLF ++ CRLF ++
  (if headOnly then [] else body)

/-- The path-component strip of `sanitizeFilename`: the C++ loop leaves
`start` = one past the last `'/'` or `'\\'` (0 if none). -/
def slashStartAux : List Char → Nat → Nat → Nat
  | [], _, acc => acc
  | c :: t, i, acc =>
    slashStartAux t (i + 1) (if c = '/' ∨ c = '\\' then i + 1 else acc)

/-- Index just past the last slash/backslash of the input. -/
def slashStart (s : List Char) : Nat := slashStartAux s 0 0

/-- Characters dropped by the cleaning loop of `sanitizeFilename`:
CR, LF, bytes below 32 and double quotes. -/
def isDroppedByClean (c : Char) : Bool :=
  c = '\r' || c = '\n' || c.toNat < 32 || c = '"'

/-- `sanitizeFilename` (src/server/Server.cpp, lines 437-455). -/
def sanitizeFilename (inp : List Char) : List Char :=
  let name := inp.drop (slashStart inp)
  let clean := name.filter (fun c => !(isDroppedByClean c))
  if clean = [] then "upload.bin".toList else clean

/-- The on-disk path `parseMultipartFormData` opens for a part
(src/server/Server.cpp, lines 552-558): the upload directory, a `'/'`
unless one is already trailing, then the sanitised filename.  (`full` is
indexed at `size()-1`, so the C++ has undefined behaviour on an empty
`uploadPath`; the model reads `getLast?`.) -/
def multipartSavePath (uploadPath fileName : List Char) : List Char :=
  (if uploadPath.getLast? ≠ some '/' then uploadPath ++ ['/'] else uploadPath)
  ++ sanitizeFilename fileName

/-- Connection phases. -/
inductive Phase
  | accepted
  | headersPh
  | bodyPh
  | handlePh
  | respondPh
  | idlePh
  | closingPh
deriving Repr, DecidableEq, Inhabited

/-- The members of `ClientConnection` that `HandleWritable` touches. -/
structure ClientConnection where
  readBuf : List Char
  writeBuf : List Char
  wantWrite : Bool
  request : HttpRequest
  parser : ParserSt
  keepAlive : Bool
  phase : Phase
deriving Repr, DecidableEq, Inhabited

/-- `Server::HandleWritable` (src/server/Server.cpp, lines 994-1019).
`accepted` models the total byte count the non-blocking socket accepts
during the send loop (the sum of the successful `::send` results before
the loop breaks), so the loop leaves `writeBuf.drop accepted`.  A `none`
result models `CloseConnection`. -/
def HandleWritable (conn : ClientConnection) (accepted : Nat) :
    Option ClientConnection :=
  let wb := conn.writeBuf.drop accepted
  if wb = [] then
    if !conn.keepAlive ∨ conn.phase = .closingPh then none
    else
      -- erase parser-consumed bytes, keeping any pipelined remainder
      let consumed := conn.parser.consumed
      let rb :=
        if consumed ≠ 0 ∧ consumed ≤ conn.readBuf.length then
          conn.readBuf.drop consumed
        else []
      some { conn with readBuf := rb, writeBuf := [], wantWrite := false,
                       request := HttpRequest.init, parser := ParserSt.init,
                       keepAlive := false, phase := .idlePh }
  else some { conn with writeBuf := wb }

/-! ### CGI response translation (`Server::DriveCgiIO`, lines 1238-1350) -/

/-- The scan state of the CGI header-block loop: translated status code
and reason, remembered `Content-Type` / `Connection` values, and the
pass-through header list. -/
structure CgiScan where
  code : Nat
  reason : List Char
  contentType : List Char
  connectionHdr : List Char
  passHeaders : List (List Char × List Char)
deriving Repr, DecidableEq

/-- Initial scan state: `200 OK`, default content type `text/html`. -/
def CgiScan.start : CgiScan :=
  ⟨200, "OK".toList, "text/html".toList, [], []⟩

/-- One CGI header line: split at the first `':'` (lines without one are
ignored), left-trim the value of spaces and tabs, then dispatch on the
lowercased name. -/
def cgiProcessLine (st : CgiScan) (line : List Char) : CgiScan :=
  match findSub [':'] line with
  | none => st
  | some colon =>
    let n := line.take colon
    let v := (line.drop (colon + 1)).dropWhile (fun c => c = ' ' || c = '\t')
    let lower := n.map toLowerC
    if lower = ("status".toList) then
      let c := atoi v
      let st1 := if 100 ≤ c ∧ c ≤ 599 then { st with code := c.toNat } else st
      match findSub [' '] v with
      | none => st1
      | some sp =>
        let r := v.drop (sp + 1)
        if r ≠ [] then { st1 with reason := r } else st1
    else if lower = ("content-type".toList) then { st with contentType := v }
    else if lower = ("connection".toList) then { st with connectionHdr := v }
    else { st with passHeaders := st.passHeaders ++ [(n, v)] }

/-- The CGI header-line loop: process lines until an empty one. -/
def cgiScanLines : List (List Char) → CgiScan → CgiScan
  | [], st => st
  | l :: rest, st => if l = [] then st else cgiScanLines rest (cgiProcessLine st l)

/-- The pass-through emission loop: `Connection` is skipped, a provided
`Content-Length` is remembered; returns the emitted text and the
`haveCL` flag. -/
def cgiEmitPass : List (List Char × List Char) → List Char × Bool
  | [] => ([], false)
  | (n, v) :: rest =>
    let tail := cgiEmitPass rest
    let lower := n.map toLowerC
    let clHere : Bool := lower = ("content-length".toList)
    if lower = ("connection".toList) then (tail.1, clHere || tail.2)
    else (n ++ (": ".toList) ++ v ++ CRLF ++ tail.1, clHere || tail.2)

/-- The keep-alive decision of `DriveCgiIO`: HTTP/1.1 default when the
child sent no `Connection` header, else a lowercase comparison with
`"keep-alive"` — the status code plays no role. -/
def cgiKeepAlive (st : CgiScan) : Bool :=
  if st.connectionHdr = [] then true
  else st.connectionHdr.map toLowerC = ("keep-alive".toList)

/-- Assembly of the translated HTTP response from the scanned CGI header
block and the body bytes: status line, pass-through headers,
`Content-Length` if the child did not provide one, `Content-Type` if
needed, then the overriding `Connection` header. -/
def cgiAssemble (st : CgiScan) (body : List Char) : List Char :=
  ("HTTP/1.1 ".toList) ++ decimal st.code ++ [' '] ++ st.reason ++ CRLF ++
  (cgiEmitPass st.passHeaders).1 ++
  (if !(cgiEmitPass st.passHeaders).2 then
    ("Content-Length: ".toList) ++ decimal body.length ++ CRLF else []) ++
  (if !(st.passHeaders.any (fun h => h.1.map toLowerC = ("content-type".toList)))
      && st.contentType ≠ [] then
    ("Content-Type: ".toList) ++ st.contentType ++ CRLF else []) ++
  ("Connection: ".toList) ++
  (if cgiKeepAlive st then "keep-alive".toList else "close".toList) ++
  CRLF ++ CRLF ++ body

/-- The CGI-to-HTTP translation performed once `"\r\n\r\n"` appears in the
CGI buffer: the full response bytes queued into `writeBuf`, the resulting
`keep_alive` flag and the translated status code.  `none` models the
not-yet branch (no header terminator in the buffer). -/
def cgiBuildResponse (cgiBuffer : List Char) :
    Option (List Char × Bool × Nat) :=
  match findSub CRLF2 cgiBuffer with
  | none => none
  | some pos =>
    let st := cgiScanLines (splitCRLF (cgiBuffer.take pos)) CgiScan.start
    some (cgiAssemble st (cgiBuffer.drop (pos + 4)), cgiKeepAlive st, st.code)

/-! ### Theorems -/

theorem slashStartAux_cases :
    ∀ (s : List Char) (i acc : Nat),
      (slashStartAux s i acc = acc ∧ ∀ c ∈ s, ¬(c = '/' ∨ c = '\\')) ∨
      (∃ k, 0 < k ∧ k ≤ s.length ∧ slashStartAux s i acc = i + k ∧
        ∀ c ∈ s.drop k, ¬(c = '/' ∨ c = '\\')) := by
  intro s
  induction s with
  | nil =>
    intro i acc
    left
    exact ⟨rfl, by simp⟩
  | cons c t ih =>
    intro i acc
    by_cases hc : c = '/' ∨ c = '\\'
    · rcases ih (i + 1) (i + 1) with ⟨he, hall⟩ | ⟨k, hk0, hkle, he, hall⟩
      · right
        refine ⟨1, Nat.one_pos, by simp, ?_, ?_⟩
        · simpa [slashStartAux, hc] using he
        · simpa using hall
      · right
        refine ⟨k + 1, Nat.succ_pos _, by simp; omega, ?_, ?_⟩
        · rw [slashStartAux, if_pos hc, he]
          omega
        · simpa using hall
    · rcases ih (i + 1) acc with ⟨he, hall⟩ | ⟨k, hk0, hkle, he, hall⟩
      · left
        refine ⟨by simpa [slashStartAux, hc] using he, ?_⟩
        intro c' hc'
        rcases List.mem_cons.mp hc' with rfl | hmem
        · exact hc
        · exact hall c' hmem
      · right
        refine ⟨k + 1, Nat.succ_pos _, by simp; omega, ?_, ?_⟩
        · rw [slashStartAux, if_neg hc, he]
          omega
        · simpa using hall

theorem mem_drop_slashStart_no_slash {inp : List Char} {c : Char}
    (h : c ∈ inp.drop (slashStart inp)) : ¬(c = '/' ∨ c = '\\') := by
  rcases slashStartAux_cases inp 0 0 with ⟨he, hall⟩ | ⟨k, _, _, he, hall⟩
  · rw [slashStart, he] at h
    exact hall c (by simpa using h)
  · rw [slashStart, he] at h
    exact hall c (by simpa using h)

/-- C10: `sanitizeFilename` always yields a non-empty name free of
slashes, backslashes, CR, LF, control bytes and double quotes, and the
path `parseMultipartFormData` saves to is the target directory followed by
such a sanitised basename, so every saved part lands directly inside the
upload directory. -/
theorem sanitizeFilename_safe :
    (∀ inp c, c ∈ sanitizeFilename inp →
      ¬(c = '/' ∨ c = '\\') ∧ c ≠ '\r' ∧ c ≠ '\n' ∧ ¬ c.toNat < 32 ∧ c ≠ '"')
    ∧ (∀ inp, sanitizeFilename inp ≠ [])
    ∧ (∀ up fn,
        (multipartSavePath up fn).drop
          (if up.getLast? ≠ some '/' then up.length + 1 else up.length) =
          sanitizeFilename fn) := by
  have hmem : ∀ inp c, c ∈ sanitizeFilename inp →
      ¬(c = '/' ∨ c = '\\') ∧ c ≠ '\r' ∧ c ≠ '\n' ∧ ¬ c.toNat < 32 ∧ c ≠ '"' := by
    intro inp c hc
    unfold sanitizeFilename at hc
    by_cases hempty :
        (inp.drop (slashStart inp)).filter (fun c => !(isDroppedByClean c)) = []
    · rw [if_pos hempty] at hc
      fin_cases hc <;> simp
    · rw [if_neg hempty] at hc
      have hfil := List.mem_filter.mp hc
      have hdrop := mem_drop_slashStart_no_slash hfil.1
      have hck := hfil.2
      simp only [isDroppedByClean, Bool.not_eq_true', Bool.or_eq_false_iff,
        decide_eq_false_iff_not] at hck
      refine ⟨hdrop, hck.1.1.1, hck.1.1.2, ?_, hck.2⟩
      simpa using hck.1.2
  refine ⟨hmem, ?_, ?_⟩
  · intro inp
    unfold sanitizeFilename
    by_cases hempty :
        (inp.drop (slashStart inp)).filter (fun c => !(isDroppedByClean c)) = []
    · rw [if_pos hempty]
      decide
    · rw [if_neg hempty]
      exact hempty
  · intro up fn
    unfold multipartSavePath
    by_cases h : up.getLast? ≠ some '/'
    · rw [if_pos h, if_pos h]
      have : (up ++ ['/']).length = up.length + 1 := by simp
      rw [← this, List.drop_left]
    · rw [if_neg h, if_neg h, List.drop_left]

/-- C10 witness: the traversal attempt `"../etc/passwd"` sanitises to a
slash-free, non-empty basename. -/
theorem sanitizeFilename_safe_witness :
    ('p' ∈ sanitizeFilename ("../etc/passwd".toList)) ∧
    (¬('p' = '/' ∨ 'p' = '\\') ∧ 'p' ≠ '\r' ∧ 'p' ≠ '\n' ∧
      ¬ 'p'.toNat < 32 ∧ 'p' ≠ '"') :=
  ⟨by decide, sanitizeFilename_safe.1 ("../etc/passwd".toList) 'p' (by decide)⟩

/-- The two-server configuration exhibiting the virtual-host case bug:
server 0 is named `alpha`, server 1 is named `bravo`. -/
def cfgTwoNames : Config :=
  ⟨[⟨[], 80, [("alpha".toList)], [], 0, []⟩,
    ⟨[], 80, [("bravo".toList)], [], 0, []⟩]⟩

/-- A request carrying only a `Host` header with the given value. -/
def reqWithHost (v : List Char) : HttpRequest :=
  { HttpRequest.init with headers := [⟨("Host".toList), v⟩] }

/-- C4: `selectServer`'s own comment promises a case-insensitive exact
match, but the comparison `sc.serverNames[j] == host` is case-sensitive:
`Host: BRAVO` falls back to server 0 while `Host: bravo` (with or without
a port suffix, which is stripped) selects server 1. -/
theorem selectServer_case_sensitivity :
    selectServerIdx cfgTwoNames (reqWithHost ("BRAVO".toList)) = 0 ∧
    selectServerIdx cfgTwoNames (reqWithHost ("bravo".toList)) = 1 ∧
    selectServerIdx cfgTwoNames (reqWithHost ("bravo:8080".toList)) = 1 ∧
    selectServerIdx cfgTwoNames (reqWithHost ("Bravo".toList)) = 0 := by
  decide

theorem matchRouteAux_char (uri : List Char) :
    ∀ (routes : List RouteConfig) (i0 bl : Nat) (best : Option Nat),
      (matchRouteAux uri routes i0 bl best = best ∧
        ∀ j, j < routes.length → (routes.getD j default).path.isPrefixOf uri →
          (routes.getD j default).path.length ≤ bl)
      ∨ (∃ j, j < routes.length ∧
          matchRouteAux uri routes i0 bl best = some (i0 + j) ∧
          (routes.getD j default).path.isPrefixOf uri ∧
          bl < (routes.getD j default).path.length ∧
          ∀ j', j' < routes.length →
            (routes.getD j' default).path.isPrefixOf uri →
            ((routes.getD j' default).path.length ≤
                (routes.getD j default).path.length ∧
              ((routes.getD j' default).path.length =
                  (routes.getD j default).path.length → j ≤ j'))) := by
  intro routes
  induction routes with
  | nil =>
    intro i0 bl best
    left
    exact ⟨rfl, by simp⟩
  | cons r rest ih =>
    intro i0 bl best
    by_cases hp : r.path.isPrefixOf uri
    · by_cases hlen : r.path.length > bl
      · rcases ih (i0 + 1) r.path.length (some i0) with
          ⟨he, hall⟩ | ⟨j, hj, he, hpj, hlt, hmax⟩
        · right
          refine ⟨0, by simp, ?_, by simpa using hp, by simpa using hlen, ?_⟩
          · rw [matchRouteAux, if_pos hp, if_pos hlen, he]
            simp
          · intro j' hj' hpj'
            match j' with
            | 0 => exact ⟨Nat.le_refl _, fun _ => Nat.le_refl _⟩
            | j'' + 1 =>
              refine ⟨?_, fun _ => Nat.zero_le _⟩
              have := hall j'' (by simpa using hj') (by simpa using hpj')
              simpa using this
        · right
          refine ⟨j + 1, by simpa using hj, ?_, by simpa using hpj, ?_, ?_⟩
          · rw [matchRouteAux, if_pos hp, if_pos hlen, he]
            congr 1
            omega
          · simp only [List.getD_cons_succ]
            omega
          · intro j' hj' hpj'
            match j' with
            | 0 =>
              simp only [List.getD_cons_zero, List.getD_cons_succ] at hlt ⊢
              exact ⟨Nat.le_of_lt hlt, fun heq => absurd heq (Nat.ne_of_lt hlt)⟩
            | j'' + 1 =>
              have := hmax j'' (by simpa using hj') (by simpa using hpj')
              simp only [List.getD_cons_succ] at this ⊢
              exact ⟨this.1, fun heq => Nat.succ_le_succ (this.2 heq)⟩
      · rcases ih (i0 + 1) bl best with
          ⟨he, hall⟩ | ⟨j, hj, he, hpj, hlt, hmax⟩
        · left
          refine ⟨by rw [matchRouteAux, if_pos hp, if_neg hlen, he], ?_⟩
          intro j hj hpj
          match j with
          | 0 => simpa using Nat.le_of_not_lt hlen
          | j'' + 1 =>
            have := hall j'' (by simpa using hj) (by simpa using hpj)
            simpa using this
        · right
          refine ⟨j + 1, by simpa using hj, ?_, by simpa using hpj, ?_, ?_⟩
          · rw [matchRouteAux, if_pos hp, if_neg hlen, he]
            congr 1
            omega
          · simpa using hlt
          · intro j' hj' hpj'
            match j' with
            | 0 =>
              simp only [List.getD_cons_zero, List.getD_cons_succ] at hlt ⊢
              have hrle : r.path.length ≤ bl := Nat.le_of_not_lt hlen
              exact ⟨by omega, fun heq => by omega⟩
            | j'' + 1 =>
              have := hmax j'' (by simpa using hj') (by simpa using hpj')
              simp only [List.getD_cons_succ] at this ⊢
              exact ⟨this.1, fun heq => Nat.succ_le_succ (this.2 heq)⟩
    · rcases ih (i0 + 1) bl best with
        ⟨he, hall⟩ | ⟨j, hj, he, hpj, hlt, hmax⟩
      · left
        refine ⟨by rw [matchRouteAux, if_neg hp, he], ?_⟩
        intro j hj hpj
        match j with
        | 0 => exact absurd (by simpa using hpj) hp
        | j'' + 1 =>
          have := hall j'' (by simpa using hj) (by simpa using hpj)
          simpa using this
      · right
        refine ⟨j + 1, by simpa using hj, ?_, by simpa using hpj, ?_, ?_⟩
        · rw [matchRouteAux, if_neg hp, he]
          congr 1
          omega
        · simpa using hlt
        · intro j' hj' hpj'
          match j' with
          | 0 => exact absurd (by simpa using hpj') hp
          | j'' + 1 =>
            have := hmax j'' (by simpa using hj') (by simpa using hpj')
            simp only [List.getD_cons_succ] at this ⊢
            exact ⟨this.1, fun heq => Nat.succ_le_succ (this.2 heq)⟩

/-- C6: `matchRoute` returns the route whose path is the longest prefix of
the URI, earliest-configured among equal lengths, and returns nothing
exactly when no route path is a prefix.  The hypothesis that route paths
are non-empty is guaranteed by the config parser, whose tokens are
non-empty. -/
theorem matchRoute_longest (sc : ServerConfig) (uri : List Char)
    (hne : ∀ r ∈ sc.routes, r.path ≠ []) :
    (∀ k, matchRoute sc uri = some k →
      k < sc.routes.length ∧
      (sc.routes.getD k default).path.isPrefixOf uri ∧
      ∀ j, j < sc.routes.length →
        (sc.routes.getD j default).path.isPrefixOf uri →
        ((sc.routes.getD j default).path.length ≤
            (sc.routes.getD k default).path.length ∧
          ((sc.routes.getD j default).path.length =
              (sc.routes.getD k default).path.length → k ≤ j)))
    ∧ (matchRoute sc uri = none →
        ∀ j, j < sc.routes.length →
          ¬ (sc.routes.getD j default).path.isPrefixOf uri) := by
  rcases matchRouteAux_char uri sc.routes 0 0 none with
    ⟨he, hall⟩ | ⟨j, hj, he, hpj, _, hmax⟩
  · constructor
    · intro k hk
      rw [matchRoute, he] at hk
      exact absurd hk (by simp)
    · intro _ j hj hpj
      have hle := hall j hj hpj
      have hnil : (sc.routes.getD j default).path = [] :=
        List.eq_nil_of_length_eq_zero (Nat.le_zero.mp hle)
      have hmem : sc.routes.getD j default ∈ sc.routes := by
        rw [List.getD_eq_getElem _ _ hj]
        exact List.getElem_mem _
      exact absurd hnil (hne _ hmem)
  · constructor
    · intro k hk
      rw [matchRoute, he] at hk
      have hkj : j = k := by
        have := Option.some.inj hk
        omega
      subst hkj
      exact ⟨hj, hpj, hmax⟩
    · intro hnone
      rw [matchRoute, he] at hnone
      exact absurd hnone (by simp)

/-- A server with a catch-all route and a longer `/img` route, used to
instantiate the route-matching theorem. -/
def scTwoRoutes : ServerConfig :=
  ⟨[], 80, [], [], 0,
    [⟨("/".toList), ("./www".toList), [], [], [], false, false, [], [], []⟩,
      ⟨("/img".toList), ("./img".toList), [], [], [], false, false, [], [], []⟩]⟩

/-- C6 witness: on `/img/x` the second route (the longer prefix) wins. -/
theorem matchRoute_longest_witness :
    (∀ r ∈ scTwoRoutes.routes, r.path ≠ []) ∧
    (scTwoRoutes.routes.getD 1 default).path.isPrefixOf ("/img/x".toList) = true :=
  ⟨by decide,
    ((matchRoute_longest scTwoRoutes ("/img/x".toList) (by decide)).1 1
      (by decide)).2.1⟩

/-- C8: once `HandleWritable` drains the outbound buffer, a keep-alive,
non-CLOSING connection has exactly its first `consumed()` bytes erased
from the inbound buffer (preserving the pipelined remainder), the parser
and request reset, and the phase set to IDLE; with keep-alive off or phase
CLOSING, the connection is closed instead.  The `consumed` bounds hold on
every reachable keep-alive connection: a completed request has
`0 < consumed ≤ readBuf.length`. -/
theorem handleWritable_spec (conn : ClientConnection) (accepted : Nat)
    (hdrain : conn.writeBuf.drop accepted = []) :
    ((conn.keepAlive = false ∨ conn.phase = .closingPh) →
      HandleWritable conn accepted = none)
    ∧ (conn.keepAlive = true → conn.phase ≠ .closingPh →
      conn.parser.consumed ≠ 0 →
      conn.parser.consumed ≤ conn.readBuf.length →
      HandleWritable conn accepted =
        some { conn with readBuf := conn.readBuf.drop conn.parser.consumed,
                         writeBuf := [], wantWrite := false,
                         request := HttpRequest.init, parser := ParserSt.init,
                         keepAlive := false, phase := .idlePh }) := by
  constructor
  · intro h
    rcases h with h | h <;> simp [HandleWritable, hdrain, h]
  · intro hka hph hc hle
    simp [HandleWritable, hdrain, hka, hph, hc, hle]

/-- A concrete keep-alive connection with a pipelined second request in
the inbound buffer. -/
def connPipelined : ClientConnection :=
  ⟨("GET1GET2".toList), ("resp".toList), true, HttpRequest.init,
    { ParserSt.init with consumed := 4 }, true, .respondPh⟩

/-- C8 witness: draining 4 outbound bytes of `connPipelined` resets the
connection and keeps only the pipelined remainder `GET2`. -/
theorem handleWritable_spec_witness :
    (connPipelined.writeBuf.drop 4 = []) ∧
    (connPipelined.keepAlive = true) ∧
    HandleWritable connPipelined 4 =
      some { connPipelined with
              readBuf := connPipelined.readBuf.drop connPipelined.parser.consumed,
              writeBuf := [], wantWrite := false,
              request := HttpRequest.init, parser := ParserSt.init,
              keepAlive := false, phase := .idlePh } :=
  ⟨by decide, by decide,
    (handleWritable_spec connPipelined 4 (by decide)).2 (by decide) (by decide)
      (by decide) (by decide)⟩

/-- The CGI child output used to refute the all-errors-close claim:
a `Status: 500` header block with no `Connection` header. -/
def cgiBuf500 : List Char := ("Status: 500 Oops\r\nX-Extra: yes\r\n\r\nhi".toList)

/-- C7 counterexample: translating a CGI child response whose `Status` is
500 (and which carries no `Connection` header) leaves `keep_alive = true`
and emits `Connection: keep-alive`, so a 5xx response is not forced to
close. -/
theorem cgi_status500_keeps_alive :
    (cgiBuildResponse cgiBuf500).map (fun r => (r.2.1, r.2.2)) =
      some (true, 500) ∧
    (cgiBuildResponse cgiBuf500).map
      (fun r => (findSub ("Connection: keep-alive".toList) r.1).isSome) =
      some true := by
  decide

theorem infix_of_append_right {x t : List Char} (h : x <:+: t)
    (a : List Char) : x <:+: a ++ t :=
  h.trans (List.suffix_append a t).isInfix

theorem cgiAssemble_connection (st : CgiScan) (body : List Char) :
    (cgiKeepAlive st = true →
      ("Connection: keep-alive".toList) <:+: cgiAssemble st body) ∧
    (cgiKeepAlive st = false →
      ("Connection: close".toList) <:+: cgiAssemble st body) := by
  constructor
  · intro hka
    rw [show ("Connection: keep-alive".toList) =
        ("Connection: ".toList) ++ ("keep-alive".toList) by decide]
    unfold cgiAssemble
    rw [hka]
    simp only [if_true, List.append_assoc]
    repeat first
      | (refine List.IsPrefix.isInfix ⟨CRLF ++ (CRLF ++ body), ?_⟩
         simp [List.append_assoc]
         done)
      | apply infix_of_append_right
  · intro hka
    rw [show ("Connection: close".toList) =
        ("Connection: ".toList) ++ ("close".toList) by decide]
    unfold cgiAssemble
    rw [hka]
    simp only [if_false, Bool.false_eq_true, List.append_assoc]
    repeat first
      | (refine List.IsPrefix.isInfix ⟨CRLF ++ (CRLF ++ body), ?_⟩
         simp [List.append_assoc]
         done)
      | apply infix_of_append_right

/-- C7 amended: every response built through `buildResponse` with
`keepAlive = false` — which is how all server-generated 4xx/5xx pages are
built — carries `Connection: close`; a CGI-translated response instead
carries the `Connection` value matching the `keep_alive` flag derived
solely from the child's `Connection` header, regardless of its status
code. -/
theorem errorResponses_connection :
    (∀ (code : Nat) (reason body ctype : List Char) (headOnly : Bool),
      ("Connection: close".toList) <:+:
        buildResponse code reason body ctype false headOnly)
    ∧ (∀ cgiBuf resp ka code, cgiBuildResponse cgiBuf = some (resp, ka, code) →
      (ka = true → ("Connection: keep-alive".toList) <:+: resp) ∧
      (ka = false → ("Connection: close".toList) <:+: resp)) := by
  constructor
  · intro code reason body ctype headOnly
    rw [show ("Connection: close".toList) =
        ("Connection: ".toList) ++ ("close".toList) by decide]
    unfold buildResponse
    simp only [if_false, Bool.false_eq_true, List.append_assoc]
    repeat first
      | (refine List.IsPrefix.isInfix
           ⟨CRLF ++ (CRLF ++ (if headOnly then [] else body)), ?_⟩
         simp [List.append_assoc]
         done)
      | apply infix_of_append_right
  · intro cgiBuf resp ka code h
    unfold cgiBuildResponse at h
    cases hfind : findSub CRLF2 cgiBuf with
    | none => rw [hfind] at h; exact absurd h (by simp)
    | some pos =>
      rw [hfind] at h
      simp only [Option.some.injEq, Prod.mk.injEq] at h
      obtain ⟨hresp, hka, _⟩ := h
      rw [← hresp, ← hka]
      exact cgiAssemble_connection _ _

/-! Positioning lemmas for `findSub`. -/

theorem findSub_single_append {c : Char} (xs rest : List Char) (h : c ∉ xs) :
    findSub [c] (xs ++ c :: rest) = some xs.length := by
  induction xs with
  | nil => simp [findSub, List.isPrefixOf]
  | cons x t ih =>
    have hxc : ¬ (([c] : List Char).isPrefixOf (x :: (t ++ c :: rest)) = true) := by
      simp only [List.isPrefixOf, Bool.and_eq_true, beq_iff_eq]
      intro hcx
      exact h (List.mem_cons.mpr (Or.inl hcx.1))
    have hrec := ih (fun hm => h (List.mem_cons_of_mem _ hm))
    rw [List.cons_append]
    simp only [findSub, List.append_eq]
    rw [if_neg hxc, hrec]
    simp

theorem findSub_CRLF_append (xs rest : List Char) (h : '\r' ∉ xs) :
    findSub CRLF (xs ++ '\r' :: '\n' :: rest) = some xs.length := by
  induction xs with
  | nil => simp [findSub, CRLF, List.isPrefixOf]
  | cons x t ih =>
    have hxc : ¬ (CRLF.isPrefixOf (x :: (t ++ '\r' :: '\n' :: rest)) = true) := by
      simp only [CRLF, List.isPrefixOf, Bool.and_eq_true, beq_iff_eq]
      intro hcx
      exact h (List.mem_cons.mpr (Or.inl hcx.1))
    have hrec := ih (fun hm => h (List.mem_cons_of_mem _ hm))
    rw [List.cons_append]
    simp only [findSub, List.append_eq]
    rw [if_neg hxc, hrec]
    simp

theorem findSub_append_left {needle hay : List Char} {i : Nat} (t : List Char)
    (h : findSub needle hay = some i) : findSub needle (hay ++ t) = some i := by
  induction hay generalizing i with
  | nil =>
    cases needle with
    | nil =>
      simp [findSub, List.isPrefixOf] at h
      cases t <;> simp [findSub, List.isPrefixOf, ← h]
    | cons a as => simp [findSub, List.isPrefixOf] at h
  | cons c hs ih =>
    by_cases hp : needle.isPrefixOf (c :: hs) = true
    · have h0 : i = 0 := by
        rw [findSub, if_pos hp] at h
        exact (Option.some.inj h).symm
      have hp2 : needle.isPrefixOf (c :: (hs ++ t)) = true := by
        rw [List.isPrefixOf_iff_prefix] at hp ⊢
        rw [show c :: (hs ++ t) = (c :: hs) ++ t from rfl]
        exact hp.trans (List.prefix_append _ _)
      subst h0
      rw [List.cons_append, findSub, if_pos hp2]
    · rw [findSub, if_neg hp] at h
      obtain ⟨j, hj, rfl⟩ := Option.map_eq_some'.mp h
      have hp2 : ¬ needle.isPrefixOf (c :: (hs ++ t)) = true := by
        intro hpre
        apply hp
        rw [show c :: (hs ++ t) = (c :: hs) ++ t from rfl] at hpre
        rw [List.isPrefixOf_iff_prefix] at hpre ⊢
        have hlen : needle.length ≤ (c :: hs).length := by
          simp only [List.length_cons]
          have hjle := findSub_some_le hj
          omega
        rw [List.prefix_iff_eq_take] at hpre ⊢
        rw [List.take_append_eq_append_take, Nat.sub_eq_zero_of_le hlen,
          List.take_zero, List.append_nil] at hpre
        exact hpre
      rw [List.cons_append]
      simp only [findSub, List.append_eq]
      rw [if_neg hp2, ih hj]
      rfl

theorem findSub_CRLF2_replicate (n : Nat) :
    findSub CRLF2 (List.replicate n 'a') = none := by
  induction n with
  | zero => simp [findSub, CRLF2, List.isPrefixOf]
  | succ m ih =>
    rw [List.replicate_succ, findSub]
    have : ¬ (CRLF2.isPrefixOf ('a' :: List.replicate m 'a') = true) := by
      simp [CRLF2, List.isPrefixOf]
    rw [if_neg this, ih]
    rfl

/-- C3 counterexample: a buffer of 8300 bytes with no `"\r\n\r\n"` leaves
the parser in REQUEST_LINE waiting for more data — no ERROR is raised even
though the headerless region exceeds 8192 bytes. -/
theorem oversized_headerless_buffer_no_error :
    (Parse ParserSt.init (List.replicate 8300 'a') HttpRequest.init).ps.state =
      PState.requestLine ∧
    (Parse ParserSt.init (List.replicate 8300 'a') HttpRequest.init).ret =
      false := by
  have h := findSub_CRLF2_replicate 8300
  unfold Parse
  rw [h]
  simp [ParserSt.init]

/-- C3 amended: when `"\r\n\r\n"` is absent the parser returns *need
more* regardless of the buffer's length; the 8192-byte check applies only
to the position of the found terminator — ERROR exactly when it exceeds
8192, and a terminator at or below 8192 proceeds to normal header
processing (no header-size error path). -/
theorem headerSize_check_semantics :
    (∀ ps data req, (ps.state = .requestLine ∨ ps.state = .headersSt) →
      findSub CRLF2 data = none → Parse ps data req = ⟨ps, req, false⟩)
    ∧ (∀ ps data req he, (ps.state = .requestLine ∨ ps.state = .headersSt) →
      findSub CRLF2 data = some he → 8192 < he →
      Parse ps data req =
        ⟨{ ps with state := .errorSt, consumed := he }, req, false⟩)
    ∧ (∀ ps data req he, (ps.state = .requestLine ∨ ps.state = .headersSt) →
      findSub CRLF2 data = some he → he ≤ 8192 →
      Parse ps data req = parseHeaderPhase ps data req he) := by
  refine ⟨?_, ?_, ?_⟩
  · intro ps data req hst hfind
    have hne : ¬ (ps.state = .doneSt ∨ ps.state = .errorSt) := by
      rcases hst with h | h <;> simp [h]
    unfold Parse
    rw [if_neg hne, if_pos hst, hfind]
  · intro ps data req he hst hfind hgt
    have hne : ¬ (ps.state = .doneSt ∨ ps.state = .errorSt) := by
      rcases hst with h | h <;> simp [h]
    unfold Parse
    rw [if_neg hne, if_pos hst, hfind]
    simp only [gt_iff_lt, if_pos hgt]
  · intro ps data req he hst hfind hle
    have hne : ¬ (ps.state = .doneSt ∨ ps.state = .errorSt) := by
      rcases hst with h | h <;> simp [h]
    unfold Parse
    rw [if_neg hne, if_pos hst, hfind]
    simp only [gt_iff_lt, if_neg (Nat.not_lt.mpr hle)]

/-- C3 amended witness: a tiny headerless buffer makes `Parse` report
need-more untouched. -/
theorem headerSize_check_semantics_witness :
    (ParserSt.init.state = .requestLine ∨ ParserSt.init.state = .headersSt) ∧
    findSub CRLF2 (['G'] : List Char) = none ∧
    Parse ParserSt.init (['G'] : List Char) HttpRequest.init =
      ⟨ParserSt.init, HttpRequest.init, false⟩ :=
  ⟨by decide, by decide,
    headerSize_check_semantics.1 ParserSt.init (['G'] : List Char)
      HttpRequest.init (by decide) (by decide)⟩

/-- C5 counterexample: the parser compares header names (and the chunked
value) with case-sensitive `==`: `content-length: 5` is recorded as an
ordinary header but sets no body length (the request completes at once
with an empty body), `transfer-encoding: chunked` does not enable chunked
decoding, while the exact `Content-Length` spelling does set the length. -/
theorem header_names_case_sensitive_cex :
    (Parse ParserSt.init
      (("GET / HTTP/1.1\r\ncontent-length: 5\r\n\r\nhello").toList)
      HttpRequest.init).ps.contentLength = 0 ∧
    (Parse ParserSt.init
      (("GET / HTTP/1.1\r\ncontent-length: 5\r\n\r\nhello").toList)
      HttpRequest.init).ps.state = .doneSt ∧
    (Parse ParserSt.init
      (("GET / HTTP/1.1\r\ncontent-length: 5\r\n\r\nhello").toList)
      HttpRequest.init).req.body = [] ∧
    (Parse ParserSt.init
      (("POST / HTTP/1.1\r\ntransfer-encoding: chunked\r\n\r\n").toList)
      HttpRequest.init).ps.chunked = false ∧
    (Parse ParserSt.init
      (("GET / HTTP/1.1\r\nContent-Length: 5\r\n\r\nhello").toList)
      HttpRequest.init).ps.contentLength = 5 := by
  decide

/-- C5 amended: a header line `name: value` records the trimmed name and
value verbatim; `m_contentLength` is set (to the `atoi` of the value, cast
to `size_t`) exactly when the name equals `Content-Length` byte-for-byte,
and chunked mode is enabled exactly when the name equals
`Transfer-Encoding` and the value equals `chunked`, both byte-for-byte —
other spellings (including case variants) have no effect. -/
theorem header_field_exact_spelling (st : HeaderScan) (nm vl : List Char)
    (hnc : (':' : Char) ∉ nm) :
    (processHeaderLine st ((nm ++ [':']) ++ vl)).headers =
      st.headers ++ [⟨trim nm, trim vl⟩]
    ∧ ((processHeaderLine st ((nm ++ [':']) ++ vl)).contentLength =
        if trim nm = ("Content-Length".toList) then toSizeT (atoi (trim vl))
        else st.contentLength)
    ∧ ((processHeaderLine st ((nm ++ [':']) ++ vl)).chunked =
        if trim nm = ("Transfer-Encoding".toList) ∧ trim vl = ("chunked".toList)
        then true else st.chunked) := by
  have hfind : findSub [':'] ((nm ++ [':']) ++ vl) = some nm.length := by
    have := findSub_single_append nm vl hnc
    simpa [List.append_assoc] using this
  have htake : ((nm ++ [':']) ++ vl).take nm.length = nm := by
    rw [List.append_assoc, List.singleton_append]
    rw [List.take_append_eq_append_take, Nat.sub_self, List.take_zero,
      List.append_nil, List.take_of_length_le (Nat.le_refl _)]
  have hdrop : ((nm ++ [':']) ++ vl).drop (nm.length + 1) = vl := by
    have hl : (nm ++ [':']).length = nm.length + 1 := by simp
    rw [← hl, List.drop_left]
  unfold processHeaderLine
  rw [hfind]
  simp only [htake, hdrop]
  refine ⟨?_, ?_, ?_⟩ <;> split_ifs <;> simp_all

/-- C5 amended witness: the canonical spelling `Content-Length: 42` sets
the content length. -/
theorem header_field_exact_spelling_witness :
    ((':' : Char) ∉ ("Content-Length".toList)) ∧
    ((processHeaderLine ⟨[], 0, false⟩
        ((("Content-Length".toList) ++ [':']) ++ (" 42".toList))).contentLength =
      if trim ("Content-Length".toList) = ("Content-Length".toList) then
        toSizeT (atoi (trim (" 42".toList)))
      else 0) :=
  ⟨by decide,
    (header_field_exact_spelling ⟨[], 0, false⟩ ("Content-Length".toList)
      (" 42".toList) (by decide)).2.1⟩

/-- The translated response for `cgiBuf500`. -/
def resp500 : List Char :=
  ("HTTP/1.1 500 Oops\r\nX-Extra: yes\r\nContent-Length: 2\r\nContent-Type: text/html\r\nConnection: keep-alive\r\n\r\nhi").toList

/-- C7 amended witness: the concrete `Status: 500` child output is
translated keep-alive, with the matching `Connection` header. -/
theorem errorResponses_connection_witness :
    (cgiBuildResponse cgiBuf500 = some (resp500, true, 500)) ∧
    ((true = true → ("Connection: keep-alive".toList) <:+: resp500) ∧
      (true = false → ("Connection: close".toList) <:+: resp500)) :=
  ⟨by decide, errorResponses_connection.2 cgiBuf500 resp500 true 500 (by decide)⟩

/-- C9: when the chunk-size line is empty (the cursor is immediately
followed by `"\r\n"`), the hex loop runs over zero digits and yields size
0, so the decoder transitions to CHUNK_TRAILER — treating the empty size
line as the terminal chunk rather than reporting ERROR; and the hex parser
maps the empty digit string to `0`. -/
theorem empty_chunk_size_line (data : List Char) (s : ChunkSt)
    (rest : List Char) (hcs : s.chunkState = .chunkSize)
    (hdrop : data.drop s.p = '\r' :: '\n' :: rest) :
    chunkLoop data s = .cont ⟨s.p + 2, s.p + 2, .chunkTrailer, 0, 0, s.body⟩
    ∧ hexVal [] = some 0 := by
  refine ⟨?_, rfl⟩
  obtain ⟨p, con, cst, csz, crd, bod⟩ := s
  simp only at hcs hdrop ⊢
  subst hcs
  have hplen : p < data.length := by
    by_contra hge
    rw [List.drop_eq_nil_of_le (Nat.le_of_not_lt hge)] at hdrop
    exact absurd hdrop (by simp)
  have hfind : findSubFrom CRLF data p = some p := by
    unfold findSubFrom
    rw [hdrop]
    simp [findSub, CRLF, List.isPrefixOf]
  rw [chunkLoop]
  rw [dif_pos ⟨hplen, by simp, by simp⟩]
  dsimp only
  split
  · rename_i heq
    rw [hfind] at heq
    exact absurd heq (by simp)
  · rename_i lineEnd heq
    rw [hfind] at heq
    have hlp := Option.some.inj heq
    subst hlp
    have hsz : (data.drop p).take (p - p) = [] := by simp
    rw [hsz]
    simp only [hexVal, hexValAux, if_pos rfl]
    rw [chunkLoop]
    rw [dif_neg (by simp)]
    simp

/-- C9 witness: a buffer whose chunk area starts directly with `"\r\n"`. -/
theorem empty_chunk_size_line_witness :
    ((⟨0, 0, .chunkSize, 0, 0, []⟩ : ChunkSt).chunkState =
      ChunkState.chunkSize) ∧
    (("\r\n\r\nZZ".toList).drop (0 : Nat) =
      '\r' :: '\n' :: ("\r\nZZ".toList)) ∧
    (chunkLoop ("\r\n\r\nZZ".toList) ⟨0, 0, .chunkSize, 0, 0, []⟩ =
      .cont ⟨0 + 2, 0 + 2, .chunkTrailer, 0, 0, []⟩ ∧
      hexVal [] = some 0) :=
  ⟨by decide, by decide,
    empty_chunk_size_line ("\r\n\r\nZZ".toList) ⟨0, 0, .chunkSize, 0, 0, []⟩
      ("\r\nZZ".toList) (by decide) (by decide)⟩

/-! ### Well-formed chunked encodings (the quantification vehicle for the
chunked round-trip property) -/

/-- Lowercase hex digit character for `d < 16`. -/
def hexDigitChar (d : Nat) : Char :=
  if d < 10 then Char.ofNat ('0'.toNat + d) else Char.ofNat ('a'.toNat + (d - 10))

/-- Little-endian hex digits of `n` (empty for 0). -/
def toHexRev : Nat → List Char
  | 0 => []
  | n + 1 => hexDigitChar ((n + 1) % 16) :: toHexRev ((n + 1) / 16)
decreasing_by exact Nat.div_lt_self (Nat.succ_pos n) (by omega)

/-- Standard hex rendering of a chunk size. -/
def toHex (n : Nat) : List Char :=
  if n = 0 then ['0'] else (toHexRev n).reverse

/-- One encoded chunk: hex size line, CRLF, payload, CRLF. -/
def encChunk (c : List Char) : List Char :=
  toHex c.length ++ CRLF ++ c ++ CRLF

/-- A whole well-formed chunked body: the chunks in order followed by the
terminating zero chunk `0\r\n` and the final trailer CRLF. -/
def encodeChunks : List (List Char) → List Char
  | [] => ['0'] ++ CRLF ++ CRLF
  | c :: rest => encChunk c ++ encodeChunks rest

/-- Total frame length of the encoded non-terminal chunks. -/
def encFrameLen : List (List Char) → Nat
  | [] => 0
  | c :: rest => (encChunk c).length + encFrameLen rest

/-- A fixed chunked request header used to drive the parser. -/
def chunkedHeader : List Char :=
  ("POST / HTTP/1.1\r\nTransfer-Encoding: chunked\r\n\r\n").toList

theorem hexDigit_hexDigitChar {d : Nat} (h : d < 16) :
    hexDigit (hexDigitChar d) = some d := by
  interval_cases d <;> decide

theorem hexDigitChar_ne_cr {d : Nat} (h : d < 16) : hexDigitChar d ≠ '\r' := by
  interval_cases d <;> decide

theorem toHexRev_mem {n : Nat} {c : Char} (h : c ∈ toHexRev n) :
    ∃ d, d < 16 ∧ c = hexDigitChar d := by
  induction n using Nat.strong_induction_on with
  | _ n ih =>
    match n with
    | 0 => rw [toHexRev] at h; exact absurd h (by simp)
    | m + 1 =>
      rw [toHexRev] at h
      rcases List.mem_cons.mp h with rfl | hmem
      · exact ⟨(m + 1) % 16, Nat.mod_lt _ (by omega), rfl⟩
      · exact ih ((m + 1) / 16) (Nat.div_lt_self (Nat.succ_pos m) (by omega)) hmem

theorem cr_not_mem_toHex (n : Nat) : '\r' ∉ toHex n := by
  unfold toHex
  split
  · decide
  · intro hmem
    obtain ⟨d, hd, hc⟩ := toHexRev_mem (List.mem_reverse.mp hmem)
    exact hexDigitChar_ne_cr hd hc.symm

theorem hexValAux_snoc (ys : List Char) (c : Char) (acc : Nat) :
    hexValAux (ys ++ [c]) acc =
      (hexValAux ys acc).bind
        (fun v => (hexDigit c).map (fun d => (v * 16 + d) % 2 ^ 64)) := by
  induction ys generalizing acc with
  | nil =>
    simp only [List.nil_append, hexValAux]
    cases hexDigit c <;> simp [hexValAux]
  | cons y ys ih =>
    simp only [List.cons_append, hexValAux]
    cases hexDigit y <;> simp [ih]

theorem hexValAux_toHexRev (n : Nat) :
    ∀ acc, acc < 2 ^ 64 →
      hexValAux ((toHexRev n).reverse) acc =
        some ((acc * 16 ^ (toHexRev n).length + n) % 2 ^ 64) := by
  induction n using Nat.strong_induction_on with
  | _ n ih =>
    intro acc hacc
    match n with
    | 0 =>
      rw [toHexRev]
      simp only [List.reverse_nil, hexValAux, List.length_nil, pow_zero,
        Nat.mul_one, Nat.add_zero, Nat.mod_eq_of_lt hacc]
    | m + 1 =>
      rw [toHexRev]
      simp only [List.reverse_cons]
      rw [hexValAux_snoc,
        ih ((m + 1) / 16) (Nat.div_lt_self (Nat.succ_pos m) (by omega)) acc hacc]
      rw [hexDigit_hexDigitChar (Nat.mod_lt _ (by omega))]
      simp only [Option.some_bind, Option.map_some']
      have h1 : (acc * 16 ^ (toHexRev ((m + 1) / 16)).length + (m + 1) / 16)
            % 2 ^ 64 * 16 + (m + 1) % 16 ≡
          (acc * 16 ^ (toHexRev ((m + 1) / 16)).length + (m + 1) / 16)
            * 16 + (m + 1) % 16 [MOD 2 ^ 64] :=
        Nat.ModEq.add_right _ (Nat.ModEq.mul_right 16 (Nat.mod_modEq _ _))
      rw [Nat.ModEq] at h1
      rw [h1]
      congr 1
      simp only [List.length_cons, pow_succ]
      generalize (16 : Nat) ^ (toHexRev ((m + 1) / 16)).length = K
      have hdm : 16 * ((m + 1) / 16) + (m + 1) % 16 = m + 1 :=
        Nat.div_add_mod (m + 1) 16
      have hrw2 : (acc * K + (m + 1) / 16) * 16 + (m + 1) % 16 =
          acc * (K * 16) + (16 * ((m + 1) / 16) + (m + 1) % 16) := by ring
      rw [hrw2, hdm]

theorem hexVal_toHex {n : Nat} (h : n < 2 ^ 64) : hexVal (toHex n) = some n := by
  unfold toHex
  split
  · rename_i h0
    subst h0
    decide
  · unfold hexVal
    rw [hexValAux_toHexRev n 0 (by norm_num)]
    simp only [Nat.zero_mul, Nat.zero_add]
    rw [Nat.mod_eq_of_lt (by exact_mod_cast h)]

theorem chunkLoop_trailer_exit (data : List Char) (s : ChunkSt)
    (h : s.chunkState = .chunkTrailer) : chunkLoop data s = .cont s := by
  rw [chunkLoop]
  exact dif_neg (by simp [h])

theorem chunkLoop_size_step (data : List Char) (s : ChunkSt)
    (lineEnd val : Nat) (hcs : s.chunkState = .chunkSize)
    (hp : s.p < data.length) (hf : findSubFrom CRLF data s.p = some lineEnd)
    (hv : hexVal ((data.drop s.p).take (lineEnd - s.p)) = some val) :
    chunkLoop data s = chunkLoop data
      ⟨lineEnd + 2, lineEnd + 2,
        if val = 0 then .chunkTrailer else .chunkData, val, 0, s.body⟩ := by
  obtain ⟨p, con, cst, csz, crd, bod⟩ := s
  simp only at hcs hf hv hp ⊢
  subst hcs
  rw [chunkLoop]
  rw [dif_pos ⟨hp, by simp, by simp⟩]
  dsimp only
  split
  · rename_i heq
    rw [hf] at heq
    exact absurd heq (by simp)
  · rename_i le2 heq
    rw [hf] at heq
    have hle := Option.some.inj heq
    subst hle
    rw [hv]

theorem chunkLoop_data_step (data : List Char) (s : ChunkSt)
    (hcs : s.chunkState = .chunkData)
    (hneed : s.currentChunkRead < s.currentChunkSize)
    (havail : s.currentChunkSize - s.currentChunkRead ≤ data.length - s.p)
    (hp : s.p < data.length)
    (hroom : s.p + (s.currentChunkSize - s.currentChunkRead) + 1 < data.length)
    (hcr : data.getD (s.p + (s.currentChunkSize - s.currentChunkRead)) '\x00'
      = '\r')
    (hlf : data.getD (s.p + (s.currentChunkSize - s.currentChunkRead) + 1)
      '\x00' = '\n') :
    chunkLoop data s = chunkLoop data
      ⟨s.p + (s.currentChunkSize - s.currentChunkRead) + 2,
        s.p + (s.currentChunkSize - s.currentChunkRead) + 2, .chunkSize,
        s.currentChunkSize, s.currentChunkSize,
        s.body ++ (data.drop s.p).take
          (s.currentChunkSize - s.currentChunkRead)⟩ := by
  obtain ⟨p, con, cst, csz, crd, bod⟩ := s
  simp only at hcs hneed havail hp hroom hcr hlf ⊢
  subst hcs
  have hmin : min (data.length - p) (csz - crd) = csz - crd :=
    Nat.min_eq_right havail
  rw [chunkLoop]
  rw [dif_pos ⟨hp, by simp, by simp⟩]
  dsimp only
  rw [hmin]
  rw [dif_pos (by omega : crd + (csz - crd) = csz)]
  rw [dif_neg (by omega : ¬(p + (csz - crd) + 1 ≥ data.length))]
  rw [if_pos ⟨hcr, hlf⟩]

/-- The byte at the junction of an append. -/
theorem getD_append_at (l1 l2 : List Char) (c d : Char) :
    (l1 ++ c :: l2).getD l1.length d = c := by
  rw [List.getD_eq_getElem?_getD, List.getElem?_append_right (Nat.le_refl _)]
  simp

/-- The byte one past the junction of an append. -/
theorem getD_append_at_succ (l1 l2 : List Char) (c1 c2 d : Char) :
    (l1 ++ c1 :: c2 :: l2).getD (l1.length + 1) d = c2 := by
  rw [List.getD_eq_getElem?_getD, List.getElem?_append_right (by omega)]
  simp [List.getD_eq_getElem?_getD]

theorem length_encodeChunks (cs : List (List Char)) :
    (encodeChunks cs).length = encFrameLen cs + 5 := by
  induction cs with
  | nil => rfl
  | cons c rest ih => simp [encodeChunks, encFrameLen, ih]; omega

/-- Running the chunk loop from the start of a well-formed encoding
consumes every chunk frame, appends exactly the payloads to the body, and
stops at the trailer with the cursor placed on the final CRLF. -/
theorem chunkLoop_encode (cs : List (List Char)) :
    ∀ (pre extra body0 : List Char) (sz0 rd0 : Nat),
      (∀ c ∈ cs, c ≠ [] ∧ c.length < 2 ^ 64) →
      chunkLoop (pre ++ (encodeChunks cs ++ extra))
        ⟨pre.length, pre.length, .chunkSize, sz0, rd0, body0⟩ =
      .cont ⟨pre.length + encFrameLen cs + 3, pre.length + encFrameLen cs + 3,
        .chunkTrailer, 0, 0, body0 ++ cs.flatten⟩ := by
  induction cs with
  | nil =>
    intro pre extra body0 sz0 rd0 _
    have hdata : encodeChunks [] ++ extra =
        '0' :: '\r' :: '\n' :: '\r' :: '\n' :: extra := rfl
    rw [hdata]
    have hdrop : (pre ++ ('0' :: '\r' :: '\n' :: '\r' :: '\n' :: extra)).drop
        pre.length = '0' :: '\r' :: '\n' :: '\r' :: '\n' :: extra :=
      List.drop_left _ _
    have hplen : pre.length <
        (pre ++ ('0' :: '\r' :: '\n' :: '\r' :: '\n' :: extra)).length := by
      simp
    have hfind : findSubFrom CRLF
        (pre ++ ('0' :: '\r' :: '\n' :: '\r' :: '\n' :: extra)) pre.length =
        some (pre.length + 1) := by
      unfold findSubFrom
      rw [hdrop]
      have h1 : findSub CRLF ('0' :: '\r' :: '\n' :: '\r' :: '\n' :: extra) =
          some 1 := by
        have := findSub_CRLF_append ['0'] ('\r' :: '\n' :: extra) (by decide)
        simpa using this
      rw [h1]
      simp [Nat.add_comm]
    have hv : hexVal
        (((pre ++ ('0' :: '\r' :: '\n' :: '\r' :: '\n' :: extra)).drop
          pre.length).take (pre.length + 1 - pre.length)) = some 0 := by
      rw [hdrop]
      have h1 : pre.length + 1 - pre.length = 1 := by omega
      rw [h1, show List.take 1 ('0' :: '\r' :: '\n' :: '\r' :: '\n' :: extra)
        = ['0'] from rfl]
      decide
    rw [chunkLoop_size_step _ _ (pre.length + 1) 0 rfl hplen hfind hv]
    rw [chunkLoop_trailer_exit _ _ rfl]
    simp [encFrameLen]
  | cons c rest ih =>
    intro pre extra body0 sz0 rd0 hall
    obtain ⟨hc, hclen⟩ := hall c (by simp)
    have hrest : ∀ x ∈ rest, x ≠ [] ∧ x.length < 2 ^ 64 :=
      fun x hx => hall x (by simp [hx])
    have hdata : pre ++ (encodeChunks (c :: rest) ++ extra) =
        pre ++ (toHex c.length ++ ('\r' :: '\n' ::
          (c ++ ('\r' :: '\n' :: (encodeChunks rest ++ extra))))) := by
      show pre ++ ((encChunk c ++ encodeChunks rest) ++ extra) = _
      simp only [encChunk, CRLF, List.append_assoc, List.cons_append,
        List.nil_append]
    rw [hdata]
    have hdrop : (pre ++ (toHex c.length ++ ('\r' :: '\n' ::
        (c ++ ('\r' :: '\n' :: (encodeChunks rest ++ extra)))))).drop
        pre.length = toHex c.length ++ ('\r' :: '\n' ::
        (c ++ ('\r' :: '\n' :: (encodeChunks rest ++ extra)))) :=
      List.drop_left _ _
    have hplen : pre.length < (pre ++ (toHex c.length ++ ('\r' :: '\n' ::
        (c ++ ('\r' :: '\n' :: (encodeChunks rest ++ extra)))))).length := by
      simp
    have hfind : findSubFrom CRLF (pre ++ (toHex c.length ++ ('\r' :: '\n' ::
        (c ++ ('\r' :: '\n' :: (encodeChunks rest ++ extra)))))) pre.length =
        some (pre.length + (toHex c.length).length) := by
      unfold findSubFrom
      rw [hdrop, findSub_CRLF_append (toHex c.length) _ (cr_not_mem_toHex _)]
      simp [Nat.add_comm]
    have hv : hexVal (((pre ++ (toHex c.length ++ ('\r' :: '\n' ::
        (c ++ ('\r' :: '\n' :: (encodeChunks rest ++ extra)))))).drop
        pre.length).take
        (pre.length + (toHex c.length).length - pre.length)) =
        some c.length := by
      rw [hdrop]
      have h1 : pre.length + (toHex c.length).length - pre.length =
          (toHex c.length).length := by omega
      rw [h1, List.take_left]
      exact hexVal_toHex hclen
    rw [chunkLoop_size_step _ _ (pre.length + (toHex c.length).length)
      c.length rfl hplen hfind hv]
    have hc0 : ¬ c.length = 0 := fun h0 => hc (List.length_eq_zero.mp h0)
    rw [if_neg hc0]
    -- the chunk-data step
    have hsplit2 : pre ++ (toHex c.length ++ ('\r' :: '\n' ::
        (c ++ ('\r' :: '\n' :: (encodeChunks rest ++ extra))))) =
        (pre ++ toHex c.length ++ ['\r', '\n'] ++ c) ++
          ('\r' :: '\n' :: (encodeChunks rest ++ extra)) := by
      simp [List.append_assoc]
    have hlenP2 : (pre ++ toHex c.length ++ ['\r', '\n'] ++ c).length =
        pre.length + (toHex c.length).length + 2 + c.length := by
      simp only [List.length_append, List.length_cons, List.length_nil] <;>
        omega
    have hDlen : (pre ++ (toHex c.length ++ ('\r' :: '\n' ::
        (c ++ ('\r' :: '\n' :: (encodeChunks rest ++ extra)))))).length =
        pre.length + (toHex c.length).length + 2 + c.length + 2 +
          ((encodeChunks rest).length + extra.length) := by
      simp only [List.length_append, List.length_cons] <;> omega
    have henclen := length_encodeChunks rest
    have havail : c.length - 0 ≤ (pre ++ (toHex c.length ++ ('\r' :: '\n' ::
        (c ++ ('\r' :: '\n' :: (encodeChunks rest ++ extra)))))).length -
        (pre.length + (toHex c.length).length + 2) := by
      rw [hDlen]
      omega
    have hp2 : pre.length + (toHex c.length).length + 2 <
        (pre ++ (toHex c.length ++ ('\r' :: '\n' ::
          (c ++ ('\r' :: '\n' :: (encodeChunks rest ++ extra)))))).length := by
      rw [hDlen]
      omega
    have hroom : pre.length + (toHex c.length).length + 2 + (c.length - 0) + 1
        < (pre ++ (toHex c.length ++ ('\r' :: '\n' ::
          (c ++ ('\r' :: '\n' :: (encodeChunks rest ++ extra)))))).length := by
      rw [hDlen]
      omega
    have hidx : pre.length + (toHex c.length).length + 2 + (c.length - 0) =
        (pre ++ toHex c.length ++ ['\r', '\n'] ++ c).length := by
      rw [hlenP2]
      omega
    have hcr : (pre ++ (toHex c.length ++ ('\r' :: '\n' ::
        (c ++ ('\r' :: '\n' :: (encodeChunks rest ++ extra)))))).getD
        (pre.length + (toHex c.length).length + 2 + (c.length - 0)) '\x00' =
        '\r' := by
      rw [hsplit2, hidx]
      exact getD_append_at _ _ _ _
    have hlf : (pre ++ (toHex c.length ++ ('\r' :: '\n' ::
        (c ++ ('\r' :: '\n' :: (encodeChunks rest ++ extra)))))).getD
        (pre.length + (toHex c.length).length + 2 + (c.length - 0) + 1)
        '\x00' = '\n' := by
      rw [hsplit2, hidx]
      exact getD_append_at_succ _ _ _ _ _
    rw [chunkLoop_data_step _
      ⟨pre.length + (toHex c.length).length + 2,
        pre.length + (toHex c.length).length + 2, .chunkData, c.length, 0,
        body0⟩ rfl (Nat.pos_of_ne_zero hc0) havail hp2 hroom hcr hlf]
    have hdrop1 : (pre ++ (toHex c.length ++ ('\r' :: '\n' ::
        (c ++ ('\r' :: '\n' :: (encodeChunks rest ++ extra)))))).drop
        (pre.length + (toHex c.length).length + 2) =
        c ++ ('\r' :: '\n' :: (encodeChunks rest ++ extra)) := by
      have hsplit1 : pre ++ (toHex c.length ++ ('\r' :: '\n' ::
          (c ++ ('\r' :: '\n' :: (encodeChunks rest ++ extra))))) =
          (pre ++ toHex c.length ++ ['\r', '\n']) ++
            (c ++ ('\r' :: '\n' :: (encodeChunks rest ++ extra))) := by
        simp [List.append_assoc]
      have hlenP1 : (pre ++ toHex c.length ++ ['\r', '\n']).length =
          pre.length + (toHex c.length).length + 2 := by
        simp only [List.length_append, List.length_cons, List.length_nil] <;>
          omega
      rw [hsplit1, ← hlenP1, List.drop_left]
    have hbody : ((pre ++ (toHex c.length ++ ('\r' :: '\n' ::
        (c ++ ('\r' :: '\n' :: (encodeChunks rest ++ extra)))))).drop
        (pre.length + (toHex c.length).length + 2)).take (c.length - 0) =
        c := by
      rw [hdrop1]
      rw [show c.length - 0 = c.length from rfl, List.take_left]
    rw [hbody]
    have hpre' : pre.length + (toHex c.length).length + 2 + (c.length - 0) + 2
        = (pre ++ encChunk c).length := by
      simp only [encChunk, CRLF, List.length_append, List.length_cons,
        List.length_nil]
      omega
    have hD' : pre ++ (toHex c.length ++ ('\r' :: '\n' ::
        (c ++ ('\r' :: '\n' :: (encodeChunks rest ++ extra))))) =
        (pre ++ encChunk c) ++ (encodeChunks rest ++ extra) := by
      simp [encChunk, CRLF, List.append_assoc]
    rw [hpre', hD']
    rw [ih (pre ++ encChunk c) extra (body0 ++ c) c.length c.length hrest]
    have harith : (pre ++ encChunk c).length + encFrameLen rest + 3 =
        pre.length + encFrameLen (c :: rest) + 3 := by
      simp only [encFrameLen, List.length_append]
      omega
    rw [harith]
    simp [List.flatten, List.append_assoc]

/-- Every encoding ends with the trailer CRLF, preceded by
`encFrameLen cs + 3` framing bytes. -/
theorem encodeChunks_split (cs : List (List Char)) :
    ∃ ys, encodeChunks cs = ys ++ '\r' :: '\n' :: [] ∧
      ys.length = encFrameLen cs + 3 := by
  induction cs with
  | nil => exact ⟨['0', '\r', '\n'], rfl, rfl⟩
  | cons c rest ih =>
    obtain ⟨ys, hy, hl⟩ := ih
    refine ⟨encChunk c ++ ys, ?_, ?_⟩
    · show encChunk c ++ encodeChunks rest = _
      rw [hy, List.append_assoc]
    · simp only [List.length_append, hl, encFrameLen]
      omega

/-- The header block and first header values of `chunkedHeader`. -/
def hdrCore : List Char :=
  ("POST / HTTP/1.1\r\nTransfer-Encoding: chunked").toList

/-- Full run of `Parse` on a well-formed chunked request (with arbitrary
pipelined bytes appended): DONE, the body is exactly the chunk payload
concatenation, and `consumed()` is the total length of the request
including all chunk framing. -/
theorem parse_chunked_complete (cs : List (List Char)) (extra : List Char)
    (hall : ∀ c ∈ cs, c ≠ [] ∧ c.length < 2 ^ 64) :
    Parse ParserSt.init (chunkedHeader ++ (encodeChunks cs ++ extra))
      HttpRequest.init =
      ⟨⟨.doneSt, 0, 47 + encFrameLen cs + 5, true, 47, .chunkDone, 0, 0⟩,
        ⟨("POST".toList), ("/".toList), ("HTTP/1.1".toList),
          [⟨("Transfer-Encoding".toList), ("chunked".toList)⟩],
          cs.flatten, true⟩, true⟩ := by
  have hfind : findSub CRLF2 (chunkedHeader ++ (encodeChunks cs ++ extra)) =
      some 43 :=
    findSub_append_left _ (by decide : findSub CRLF2 chunkedHeader = some 43)
  unfold Parse
  rw [if_neg (by decide), if_pos (by decide), hfind]
  dsimp only
  rw [if_neg (by norm_num : ¬ (43:Nat) > 8192)]
  unfold parseHeaderPhase
  have htake43 : (chunkedHeader ++ (encodeChunks cs ++ extra)).take 43 =
      hdrCore := by
    rw [List.take_append_of_le_length (by decide : (43:Nat) ≤ chunkedHeader.length)]
    decide
  rw [htake43]
  rw [show splitCRLF hdrCore =
    [("POST / HTTP/1.1").toList, ("Transfer-Encoding: chunked").toList]
    from by decide]
  dsimp only
  rw [show parseRequestLine (("POST / HTTP/1.1").toList) =
    .ok ("POST".toList) ("/".toList) ("HTTP/1.1".toList) from by decide]
  dsimp only
  rw [show scanHeaderLines [("Transfer-Encoding: chunked").toList]
      ⟨HttpRequest.init.headers, ParserSt.init.contentLength,
        ParserSt.init.chunked⟩ =
    ⟨[⟨("Transfer-Encoding".toList), ("chunked".toList)⟩], 0, true⟩
    from by decide]
  dsimp only
  unfold parseBody
  rw [if_pos rfl, if_pos rfl]
  dsimp only [ParserSt.init, HttpRequest.init]
  have hrun := chunkLoop_encode cs chunkedHeader extra [] 0 0 hall
  rw [show chunkedHeader.length = 47 from by decide] at hrun
  rw [show (if (0:Nat) = 0 then (43+4:Nat) else 0) = 47 from by norm_num,
    show (if (0:Nat) < 43+4 then (43+4:Nat) else 0) = 47 from by norm_num]
  rw [hrun]
  dsimp only
  rw [if_pos rfl]
  obtain ⟨ys, hy, hyl⟩ := encodeChunks_split cs
  have hD : chunkedHeader ++ (encodeChunks cs ++ extra) =
      (chunkedHeader ++ ys) ++ ('\r' :: '\n' :: extra) := by
    rw [hy]
    simp [List.append_assoc]
  have hlenCY : (chunkedHeader ++ ys).length = 47 + encFrameLen cs + 3 := by
    simp only [List.length_append, hyl,
      show chunkedHeader.length = 47 from by decide]
    omega
  have hDlen : (chunkedHeader ++ (encodeChunks cs ++ extra)).length =
      47 + encFrameLen cs + 5 + extra.length := by
    rw [hD]
    simp only [List.length_append, List.length_cons, hlenCY]
    omega
  rw [if_pos (by rw [hDlen]; omega :
    (chunkedHeader ++ (encodeChunks cs ++ extra)).length ≥
      47 + encFrameLen cs + 3 + 2)]
  have hcr : (chunkedHeader ++ (encodeChunks cs ++ extra)).getD
      (47 + encFrameLen cs + 3) '\x00' = '\r' := by
    rw [hD, ← hlenCY]
    exact getD_append_at _ _ _ _
  have hlf : (chunkedHeader ++ (encodeChunks cs ++ extra)).getD
      (47 + encFrameLen cs + 3 + 1) '\x00' = '\n' := by
    rw [hD, ← hlenCY]
    exact getD_append_at_succ _ _ _ _ _
  rw [if_pos ⟨hcr, hlf⟩]
  simp only [ParserSt.withChunk]
  constructor

/-- The state a chunk-loop result carries. -/
def ChunkRes.st : ChunkRes → ChunkSt
  | .cont s => s
  | .err s => s

/-- Inside the chunk loop `m_consumed` never decreases and never passes
the cursor. -/
theorem chunkLoop_consumed_le (data : List Char) (s : ChunkSt) :
    s.consumed ≤ s.p →
    s.consumed ≤ (chunkLoop data s).st.consumed ∧
      (chunkLoop data s).st.consumed ≤ (chunkLoop data s).st.p := by
  refine chunkLoop.induct data
    (fun s => s.consumed ≤ s.p →
      s.consumed ≤ (chunkLoop data s).st.consumed ∧
        (chunkLoop data s).st.consumed ≤ (chunkLoop data s).st.p)
    ?_ ?_ ?_ ?_ ?_ ?_ ?_ ?_ ?_ s
  · intro x hcond hcs hf hcp
    obtain ⟨p, con, cst, csz, crd, bod⟩ := x
    simp only at hcs hf hcp ⊢
    subst hcs
    rw [chunkLoop, dif_pos hcond]
    dsimp only
    split
    · exact ⟨Nat.le_refl _, hcp⟩
    · rename_i le2 heq
      rw [hf] at heq
      exact absurd heq (by simp)
  · intro x hcond hcs lineEnd hf hv hcp
    obtain ⟨p, con, cst, csz, crd, bod⟩ := x
    simp only at hcs hf hv hcp ⊢
    subst hcs
    rw [chunkLoop, dif_pos hcond]
    dsimp only
    split
    · rename_i heq
      rw [hf] at heq
      exact absurd heq (by simp)
    · rename_i le2 heq
      rw [hf] at heq
      have hle := Option.some.inj heq
      subst hle
      rw [hv]
      exact ⟨Nat.le_refl _, hcp⟩
  · intro x hcond hcs lineEnd hf d hv ih hcp
    have hbounds := findSubFrom_some_bounds (by decide : CRLF ≠ []) hf
    have hstep := chunkLoop_size_step data x lineEnd d hcs hcond.1 hf hv
    rw [hstep]
    have hnew := ih (Nat.le_refl _)
    refine ⟨?_, hnew.2⟩
    calc x.consumed ≤ x.p := hcp
      _ ≤ lineEnd + 2 := by omega
      _ ≤ _ := hnew.1
  · intro x hcond hcs hfin hb hcp
    obtain ⟨p, con, cst, csz, crd, bod⟩ := x
    simp only at hcs hfin hb hcp ⊢
    subst hcs
    rw [chunkLoop, dif_pos hcond]
    dsimp only
    rw [dif_pos hfin, dif_pos hb]
    exact ⟨by simp only [ChunkRes.st]; omega, by simp only [ChunkRes.st]; omega⟩
  · intro x hcond hcs hfin hb hcrlf ih hcp
    obtain ⟨p, con, cst, csz, crd, bod⟩ := x
    simp only at hcs hfin hb hcrlf hcp ih ⊢
    subst hcs
    rw [chunkLoop, dif_pos hcond]
    dsimp only
    rw [dif_pos hfin, dif_neg hb, if_pos hcrlf]
    have hnew := ih (Nat.le_refl _)
    refine ⟨?_, hnew.2⟩
    calc con ≤ p := hcp
      _ ≤ p + (data.length - p) ⊓ (csz - crd) + 2 := by omega
      _ ≤ _ := hnew.1
  · intro x hcond hcs hfin hb hcrlf hcp
    obtain ⟨p, con, cst, csz, crd, bod⟩ := x
    simp only at hcs hfin hb hcrlf hcp ⊢
    subst hcs
    rw [chunkLoop, dif_pos hcond]
    dsimp only
    rw [dif_pos hfin, dif_neg hb, if_neg hcrlf]
    exact ⟨by simp only [ChunkRes.st]; omega, by simp only [ChunkRes.st]; omega⟩
  · intro x hcond hcs hfin hcp
    obtain ⟨p, con, cst, csz, crd, bod⟩ := x
    simp only at hcs hfin hcp ⊢
    subst hcs
    rw [chunkLoop, dif_pos hcond]
    dsimp only
    rw [dif_neg hfin]
    exact ⟨by simp only [ChunkRes.st]; omega, by simp only [ChunkRes.st]; omega⟩
  · intro x hcond h1 h2 hcp
    obtain ⟨p, con, cst, csz, crd, bod⟩ := x
    simp only at h1 h2 hcp ⊢
    cases cst with
    | chunkSize => exact absurd rfl h1
    | chunkData => exact absurd rfl h2
    | chunkCrlf =>
      rw [chunkLoop, dif_pos hcond]
      exact ⟨Nat.le_refl _, hcp⟩
    | chunkTrailer => exact absurd rfl hcond.2.2
    | chunkDone => exact absurd rfl hcond.2.1
  · intro x hcond hcp
    rw [chunkLoop, dif_neg hcond]
    exact ⟨Nat.le_refl _, hcp⟩

/-- Reachability invariant of the parser members: `m_consumed` is zero
before the body phase, and in the chunked body phase it is zero or at
least the header end. -/
def Inv (ps : ParserSt) : Prop :=
  ((ps.state = .requestLine ∨ ps.state = .headersSt) → ps.consumed = 0) ∧
  (ps.state = .bodySt →
    (ps.chunked = false → ps.consumed = 0) ∧
    (ps.chunked = true → ps.consumed = 0 ∨ ps.headerEndOffset ≤ ps.consumed))

theorem Inv_state (ps : ParserSt)
    (h : ps.state = .doneSt ∨ ps.state = .errorSt) : Inv ps := by
  constructor
  · intro hc
    rcases h with h | h <;> rcases hc with hc | hc <;> rw [h] at hc <;>
      cases hc
  · intro hc
    rcases h with h | h <;> rw [h] at hc <;> cases hc

theorem parseBody_consumed_mono (ps : ParserSt) (data : List Char)
    (req : HttpRequest) (hInv : Inv ps) :
    ps.consumed ≤ (parseBody ps data req).ps.consumed ∧
      Inv (parseBody ps data req).ps := by
  unfold parseBody
  by_cases hst : ps.state = .bodySt
  · rw [if_pos hst]
    by_cases hch : ps.chunked = true
    · rw [if_pos hch]
      have hkey : (if ps.consumed < ps.headerEndOffset then ps.headerEndOffset
            else ps.consumed) ≤
            (if ps.consumed = 0 then ps.headerEndOffset else ps.consumed) ∧
          ps.consumed ≤ (if ps.consumed < ps.headerEndOffset then
            ps.headerEndOffset else ps.consumed) ∧
          ps.headerEndOffset ≤ (if ps.consumed < ps.headerEndOffset then
            ps.headerEndOffset else ps.consumed) := by
        rcases (hInv.2 hst).2 hch with h0 | hge <;> split_ifs <;> omega
      obtain ⟨hcp, hmono0, hhe0⟩ := hkey
      have hloop := chunkLoop_consumed_le data
        ⟨(if ps.consumed = 0 then ps.headerEndOffset else ps.consumed),
          (if ps.consumed < ps.headerEndOffset then ps.headerEndOffset
            else ps.consumed),
          ps.chunkState, ps.currentChunkSize, ps.currentChunkRead, req.body⟩
        hcp
      cases hres : chunkLoop data
          ⟨(if ps.consumed = 0 then ps.headerEndOffset else ps.consumed),
            (if ps.consumed < ps.headerEndOffset then ps.headerEndOffset
              else ps.consumed),
            ps.chunkState, ps.currentChunkSize, ps.currentChunkRead,
            req.body⟩ with
      | err s2 =>
        rw [hres] at hloop
        dsimp only [ChunkRes.st] at hloop
        dsimp only
        refine ⟨?_, Inv_state _ (Or.inr rfl)⟩
        simp only [ParserSt.withChunk]
        omega
      | cont s2 =>
        rw [hres] at hloop
        dsimp only [ChunkRes.st] at hloop
        dsimp only
        split_ifs with h1 h2 h3 h4
        · exact ⟨by simp only [ParserSt.withChunk]; omega,
            Inv_state _ (Or.inl rfl)⟩
        · exact ⟨by simp only [ParserSt.withChunk]; omega,
            Inv_state _ (Or.inr rfl)⟩
        · refine ⟨by simp only [ParserSt.withChunk]; omega, ?_⟩
          refine ⟨fun hc => ?_, fun hc => ?_⟩
          · simp only [ParserSt.withChunk] at hc
            rcases hc with hc | hc <;> rw [hst] at hc <;> cases hc
          · simp only [ParserSt.withChunk] at hc ⊢
            refine ⟨fun hcf => ?_, fun _ => Or.inr (by omega)⟩
            rw [hch] at hcf
            cases hcf
        · refine ⟨by simp only [ParserSt.withChunk]; omega, ?_⟩
          refine ⟨fun hc => ?_, fun hc => ?_⟩
          · simp only [ParserSt.withChunk] at hc
            rcases hc with hc | hc <;> rw [hst] at hc <;> cases hc
          · simp only [ParserSt.withChunk] at hc ⊢
            refine ⟨fun hcf => ?_, fun _ => Or.inr (by omega)⟩
            rw [hch] at hcf
            cases hcf
        · refine ⟨by simp only [ParserSt.withChunk]; omega, ?_⟩
          refine ⟨fun hc => ?_, fun hc => ?_⟩
          · simp only [ParserSt.withChunk] at hc
            rcases hc with hc | hc <;> rw [hst] at hc <;> cases hc
          · simp only [ParserSt.withChunk] at hc ⊢
            refine ⟨fun hcf => ?_, fun _ => Or.inr (by omega)⟩
            rw [hch] at hcf
            cases hcf
    · rw [if_neg hch]
      have h0 : ps.consumed = 0 :=
        (hInv.2 hst).1 (by simpa using hch)
      split_ifs with hlen
      · exact ⟨by simp only; omega, Inv_state _ (Or.inl rfl)⟩
      · exact ⟨Nat.le_refl _, hInv⟩
  · rw [if_neg hst]
    exact ⟨Nat.le_refl _, hInv⟩

theorem Parse_consumed_mono (ps : ParserSt) (data : List Char)
    (req : HttpRequest) (hInv : Inv ps) :
    ps.consumed ≤ (Parse ps data req).ps.consumed ∧
      Inv (Parse ps data req).ps := by
  unfold Parse
  by_cases hde : ps.state = .doneSt ∨ ps.state = .errorSt
  · rw [if_pos hde]
    exact ⟨Nat.le_refl _, hInv⟩
  · rw [if_neg hde]
    by_cases hhd : ps.state = .requestLine ∨ ps.state = .headersSt
    · rw [if_pos hhd]
      have h0 : ps.consumed = 0 := hInv.1 hhd
      cases hfind : findSub CRLF2 data with
      | none =>
        exact ⟨Nat.le_refl _, hInv⟩
      | some he =>
        dsimp only
        split_ifs with hgt
        · exact ⟨by simp only; omega, Inv_state _ (Or.inr rfl)⟩
        · unfold parseHeaderPhase
          cases hsplit : splitCRLF (data.take he) with
          | nil =>
            dsimp only
            have hInv1 : Inv { ps with state := .bodySt, headerEndOffset := he + 4 } :=
              ⟨fun _ => h0, fun _ => ⟨fun _ => h0, fun _ => Or.inl h0⟩⟩
            exact parseBody_consumed_mono
              { ps with state := .bodySt, headerEndOffset := he + 4 } data req
              hInv1
          | cons l1 rest =>
            dsimp only
            cases hreq : parseRequestLine l1 with
            | errAt cc =>
              exact ⟨by simp only; omega, Inv_state _ (Or.inr rfl)⟩
            | ok m u v =>
              dsimp only
              have hInv2 : Inv { ps with state := .bodySt, headerEndOffset := he + 4, contentLength := (scanHeaderLines rest ⟨req.headers, ps.contentLength, ps.chunked⟩).contentLength, chunked := (scanHeaderLines rest ⟨req.headers, ps.contentLength, ps.chunked⟩).chunked } :=
                ⟨fun _ => h0, fun _ => ⟨fun _ => h0, fun _ => Or.inl h0⟩⟩
              exact parseBody_consumed_mono _ data _ hInv2
    · rw [if_neg hhd]
      exact parseBody_consumed_mono ps data req hInv

theorem parseBody_done_fixed (ps : ParserSt) (data : List Char)
    (req : HttpRequest) (hnb : ps.state ≠ .doneSt)
    (hdone : (parseBody ps data req).ps.state = .doneSt)
    (hch : (parseBody ps data req).ps.chunked = false) :
    (parseBody ps data req).ps.consumed =
      (parseBody ps data req).ps.headerEndOffset +
        (parseBody ps data req).ps.contentLength := by
  unfold parseBody at hdone hch ⊢
  by_cases hst : ps.state = .bodySt
  · rw [if_pos hst] at hdone hch ⊢
    by_cases hchk : ps.chunked = true
    · rw [if_pos hchk] at hdone hch ⊢
      exfalso
      cases hres : chunkLoop data
          ⟨(if ps.consumed = 0 then ps.headerEndOffset else ps.consumed),
            (if ps.consumed < ps.headerEndOffset then ps.headerEndOffset
              else ps.consumed),
            ps.chunkState, ps.currentChunkSize, ps.currentChunkRead,
            req.body⟩ with
      | err s2 =>
        rw [hres] at hch
        dsimp only at hch
        simp [ParserSt.withChunk, hchk] at hch
      | cont s2 =>
        rw [hres] at hch
        dsimp only at hch
        revert hch
        split_ifs <;> intro hch <;>
          simp [ParserSt.withChunk, hchk] at hch
    · rw [if_neg hchk] at hdone ⊢
      split_ifs at hdone ⊢ with hlen
      · rfl
      · rw [hst] at hdone
        cases hdone
  · rw [if_neg hst] at hdone
    exact absurd hdone hnb

theorem Parse_done_fixed (ps : ParserSt) (data : List Char)
    (req : HttpRequest) (hnb : ps.state ≠ .doneSt) :
    (Parse ps data req).ps.state = .doneSt →
    (Parse ps data req).ps.chunked = false →
    (Parse ps data req).ps.consumed =
      (Parse ps data req).ps.headerEndOffset +
        (Parse ps data req).ps.contentLength := by
  intro hdone hch
  unfold Parse at hdone hch ⊢
  by_cases hde : ps.state = .doneSt ∨ ps.state = .errorSt
  · rw [if_pos hde] at hdone
    rcases hde with h | h
    · exact absurd h hnb
    · rw [h] at hdone
      cases hdone
  · rw [if_neg hde] at hdone hch ⊢
    by_cases hhd : ps.state = .requestLine ∨ ps.state = .headersSt
    · rw [if_pos hhd] at hdone hch ⊢
      cases hfind : findSub CRLF2 data with
      | none =>
        rw [hfind] at hdone
        dsimp only at hdone
        rcases hhd with h | h <;> rw [h] at hdone <;> cases hdone
      | some he =>
        rw [hfind] at hdone hch
        dsimp only at hdone hch ⊢
        split_ifs at hdone hch ⊢ with hgt
        unfold parseHeaderPhase at hdone hch ⊢
        cases hsplit : splitCRLF (data.take he) with
        | nil =>
          rw [hsplit] at hdone hch
          dsimp only at hdone hch ⊢
          exact parseBody_done_fixed _ data req (by simp) hdone hch
        | cons l1 rest =>
          rw [hsplit] at hdone hch
          dsimp only at hdone hch ⊢
          cases hreq : parseRequestLine l1 with
          | errAt cc =>
            rw [hreq] at hdone
            dsimp only at hdone
            cases hdone
          | ok m u v =>
            rw [hreq] at hdone hch
            dsimp only at hdone hch ⊢
            exact parseBody_done_fixed _ data _ (by simp) hdone hch
    · rw [if_neg hhd] at hdone hch ⊢
      exact parseBody_done_fixed ps data req hnb hdone hch

theorem feedAll_inv_mono (datas : List (List Char)) :
    ∀ acc : ParserSt × HttpRequest, Inv acc.1 →
      Inv (datas.foldl feedStep acc).1 ∧
        acc.1.consumed ≤ (datas.foldl feedStep acc).1.consumed := by
  induction datas with
  | nil => exact fun acc h => ⟨h, Nat.le_refl _⟩
  | cons d rest ih =>
    intro acc h
    have hstep := Parse_consumed_mono acc.1 d acc.2 h
    have hrest := ih (feedStep acc d) hstep.2
    exact ⟨hrest.1, Nat.le_trans hstep.1 hrest.2⟩

theorem Inv_init : Inv ParserSt.init :=
  ⟨fun _ => rfl, fun hc => nomatch hc⟩

/-- C1: for every well-formed chunked body — a sequence of non-empty
chunks, each shorter than 2^64 bytes, encoded with hex size lines, chunk
CRLFs and the terminating zero chunk — `Parse` on the full buffer reaches
DONE, marks the request complete, and reports exactly the concatenation of
the chunk payloads as the body: the framing bytes are excluded. -/
theorem chunked_round_trip (cs : List (List Char)) (extra : List Char)
    (hall : ∀ c ∈ cs, c ≠ [] ∧ c.length < 2 ^ 64) :
    (Parse ParserSt.init (chunkedHeader ++ (encodeChunks cs ++ extra))
        HttpRequest.init).ps.state = .doneSt ∧
    (Parse ParserSt.init (chunkedHeader ++ (encodeChunks cs ++ extra))
        HttpRequest.init).req.complete = true ∧
    (Parse ParserSt.init (chunkedHeader ++ (encodeChunks cs ++ extra))
        HttpRequest.init).req.body = cs.flatten := by
  rw [parse_chunked_complete cs extra hall]
  exact ⟨rfl, rfl, rfl⟩

theorem chunked_round_trip_witness :
    (∀ c ∈ [("Wiki").toList, ("pedia").toList], c ≠ [] ∧ c.length < 2 ^ 64) ∧
    (Parse ParserSt.init
        (chunkedHeader ++
          (encodeChunks [("Wiki").toList, ("pedia").toList] ++ []))
        HttpRequest.init).req.body = ("Wikipedia").toList := by
  refine ⟨by decide, ?_⟩
  rw [(chunked_round_trip [("Wiki").toList, ("pedia").toList] []
    (by decide)).2.2]
  decide

/-- C2: `m_consumed` is non-decreasing across any sequence of `Parse`
calls from a fresh parser; and when a call reaches DONE, `consumed()` is
the total byte length of the completed request: for a fixed-length body it
is the header-end offset plus the declared `Content-Length`, and for a
well-formed chunked request it is the length of the header block plus the
full chunk framing (size lines, chunk CRLFs and the zero chunk
included). -/
theorem consumed_monotone_and_done
    (datas : List (List Char)) (d : List Char)
    (ps : ParserSt) (data : List Char) (req : HttpRequest)
    (cs : List (List Char)) (extra : List Char)
    (hnb : ps.state ≠ .doneSt)
    (hall : ∀ c ∈ cs, c ≠ [] ∧ c.length < 2 ^ 64) :
    (feedAll datas).1.consumed ≤ (feedAll (datas ++ [d])).1.consumed ∧
    ((Parse ps data req).ps.state = .doneSt →
      (Parse ps data req).ps.chunked = false →
      (Parse ps data req).ps.consumed =
        (Parse ps data req).ps.headerEndOffset +
          (Parse ps data req).ps.contentLength) ∧
    (Parse ParserSt.init (chunkedHeader ++ (encodeChunks cs ++ extra))
        HttpRequest.init).ps.consumed =
      (chunkedHeader ++ encodeChunks cs).length := by
  refine ⟨?_, Parse_done_fixed ps data req hnb, ?_⟩
  · have hmono := feedAll_inv_mono datas (ParserSt.init, HttpRequest.init)
      Inv_init
    have hstep := Parse_consumed_mono (feedAll datas).1 d (feedAll datas).2
      hmono.1
    unfold feedAll
    rw [List.foldl_append]
    exact hstep.1
  · rw [parse_chunked_complete cs extra hall]
    rw [List.length_append, length_encodeChunks]
    rfl

theorem consumed_monotone_and_done_witness :
    (ParserSt.init.state ≠ PState.doneSt ∧
      (∀ c ∈ [[('a' : Char)]], c ≠ [] ∧ c.length < 2 ^ 64)) ∧
    ((feedAll []).1.consumed ≤
        (feedAll ([] ++
          [("GET / HTTP/1.1
Content-Length: 3

abc").toList])).1.consumed ∧
      ((Parse ParserSt.init
            (("GET / HTTP/1.1
Content-Length: 3

abc").toList)
            HttpRequest.init).ps.state = .doneSt →
        (Parse ParserSt.init
            (("GET / HTTP/1.1
Content-Length: 3

abc").toList)
            HttpRequest.init).ps.chunked = false →
        (Parse ParserSt.init
            (("GET / HTTP/1.1
Content-Length: 3

abc").toList)
            HttpRequest.init).ps.consumed =
          (Parse ParserSt.init
              (("GET / HTTP/1.1
Content-Length: 3

abc").toList)
              HttpRequest.init).ps.headerEndOffset +
            (Parse ParserSt.init
                (("GET / HTTP/1.1
Content-Length: 3

abc").toList)
                HttpRequest.init).ps.contentLength) ∧
      (Parse ParserSt.init
          (chunkedHeader ++ (encodeChunks [[('a' : Char)]] ++ []))
          HttpRequest.init).ps.consumed =
        (chunkedHeader ++ encodeChunks [[('a' : Char)]]).length) :=
  ⟨⟨by decide, by decide⟩,
    consumed_monotone_and_done []
      (("GET / HTTP/1.1
Content-Length: 3

abc").toList)
      ParserSt.init
      (("GET / HTTP/1.1
Content-Length: 3

abc").toList)
      HttpRequest.init [[('a' : Char)]] [] (by decide) (by decide)⟩

end Selfserv
